import Mathlib

/-!
# Verification of the Pro Log Analyzer core (`log_analyzer.py`)

This file gives a shallow embedding of the `AdvancedLogAnalyzer` class of
`src/log_analyzer.py` and proves/refutes the frozen claims about it.

Modelling conventions:
* Python strings are modelled as `String` / `List Char`; all functions are
  executable and structurally recursive so that concrete runs reduce in the
  kernel.
* The regular-expression operations of the source are embedded as
  deterministic character-level scanners that implement the exact
  leftmost / lazy / greedy backtracking semantics of the concrete patterns
  used by the source (each scanner documents its pattern).
* Python's `json.loads` / `csv.DictReader` are standard-library black boxes;
  they are modelled by an executable JSON parser (integer numerals; floats
  are not modelled) and a plain comma-splitting CSV reader (quoting is not
  modelled).  The claims under study do not depend on the unmodelled corners.
* `\w`, `\d`, `\s` and `str.lower` are modelled on the ASCII fragment.
-/

set_option maxRecDepth 8000

namespace LogAnalyzer

/-! ## Character classes (ASCII fragment of Python's `\w`, `\d`, `\s`) -/

/-- Python regex `\w` (word character), ASCII fragment: `[A-Za-z0-9_]`. -/
def isWordChar (c : Char) : Bool :=
  ('a' ≤ c && c ≤ 'z') || ('A' ≤ c && c ≤ 'Z') || ('0' ≤ c && c ≤ '9') || c = '_'

/-- Python regex `\d`, ASCII fragment: `[0-9]`. -/
def isDigitChar (c : Char) : Bool := '0' ≤ c && c ≤ '9'

/-- Python regex `\s` / `str.strip` whitespace, ASCII fragment. -/
def isSpaceChar (c : Char) : Bool :=
  c = ' ' || c = '\t' || c = '\n' || c = '\r' || c = '\x0b' || c = '\x0c'

/-- Wordness of an optional previous character; the edge of the string counts
as a non-word position for `\b`. -/
def wordOpt : Option Char → Bool
  | none => false
  | some c => isWordChar c

/-- Character class of the UUID mask pattern: `[0-9a-fA-F-]`. -/
def isUuidChar (c : Char) : Bool :=
  ('0' ≤ c && c ≤ '9') || ('a' ≤ c && c ≤ 'f') || ('A' ≤ c && c ≤ 'F') || c = '-'

/-! ## The four masking substitutions of `_cluster_logs`

The source applies, in order, the `re.sub` substitutions
1. `\b\d+\.\d+\.\d+\.\d+\b` ↦ `{IP}`
2. `\b[0-9a-fA-F-]{36}\b`   ↦ `{UUID}`
3. `\b\d+\b`                ↦ `{NUM}`
4. `'.*?'`                  ↦ `'{STR}'`

Each substitution scans the input left to right, replaces the leftmost
non-overlapping matches, and keeps matching against the *original* text
(the replacement text never takes part in later matches of the same pass).
The scanners below implement exactly that; where they skip positions inside
a failed match attempt, the skipped positions provably cannot start a match
(`\b` fails inside a digit run, `'` cannot occur inside the scanned span),
so the scan agrees with trying every position. -/

def ipMask : List Char := ['\x7b', 'I', 'P', '\x7d']
def uuidMask : List Char := ['\x7b', 'U', 'U', 'I', 'D', '\x7d']
def numMask : List Char := ['\x7b', 'N', 'U', 'M', '\x7d']
def strMask : List Char := ['\'', '\x7b', 'S', 'T', 'R', '\x7d', '\'']

/-- States of the scanner for `\b\d+\.\d+\.\d+\.\d+\b` (rule 1): either plain
scanning with the wordness of the previous character, or inside a match
attempt.  The attempt states record the run index being consumed (first digit
run, after the k-th dot, …) together with all consumed characters (reversed)
so that a failed attempt can be emitted unchanged. -/
inductive IpSt where
  | scan (pc : Bool)
  | r1 (acc : List Char) | p1 (acc : List Char)
  | r2 (acc : List Char) | p2 (acc : List Char)
  | r3 (acc : List Char) | p3 (acc : List Char)
  | r4 (acc : List Char)
deriving Repr, DecidableEq

/-- One-pass substitution `\b\d+\.\d+\.\d+\.\d+\b` ↦ `{IP}` (rule 1).
A failed attempt emits the consumed characters unchanged and resumes plain
scanning at the failing character: no position inside the consumed span can
start a match (interior digits have a word character before them, and an
attempt starting at a later digit run fails at the same failing character). -/
def sub1go : IpSt → List Char → List Char
  | .scan _, [] => []
  | .r1 acc, [] => acc.reverse
  | .p1 acc, [] => acc.reverse
  | .r2 acc, [] => acc.reverse
  | .p2 acc, [] => acc.reverse
  | .r3 acc, [] => acc.reverse
  | .p3 acc, [] => acc.reverse
  | .r4 _, [] => ipMask
  | .scan pc, c :: rest =>
    if isDigitChar c && !pc then sub1go (.r1 [c]) rest
    else c :: sub1go (.scan (isWordChar c)) rest
  | .r1 acc, c :: rest =>
    if isDigitChar c then sub1go (.r1 (c :: acc)) rest
    else if c = '.' then sub1go (.p1 (c :: acc)) rest
    else acc.reverse ++ c :: sub1go (.scan (isWordChar c)) rest
  | .p1 acc, c :: rest =>
    if isDigitChar c then sub1go (.r2 (c :: acc)) rest
    else acc.reverse ++ c :: sub1go (.scan (isWordChar c)) rest
  | .r2 acc, c :: rest =>
    if isDigitChar c then sub1go (.r2 (c :: acc)) rest
    else if c = '.' then sub1go (.p2 (c :: acc)) rest
    else acc.reverse ++ c :: sub1go (.scan (isWordChar c)) rest
  | .p2 acc, c :: rest =>
    if isDigitChar c then sub1go (.r3 (c :: acc)) rest
    else acc.reverse ++ c :: sub1go (.scan (isWordChar c)) rest
  | .r3 acc, c :: rest =>
    if isDigitChar c then sub1go (.r3 (c :: acc)) rest
    else if c = '.' then sub1go (.p3 (c :: acc)) rest
    else acc.reverse ++ c :: sub1go (.scan (isWordChar c)) rest
  | .p3 acc, c :: rest =>
    if isDigitChar c then sub1go (.r4 (c :: acc)) rest
    else acc.reverse ++ c :: sub1go (.scan (isWordChar c)) rest
  | .r4 acc, c :: rest =>
    if isDigitChar c then sub1go (.r4 (c :: acc)) rest
    else if isWordChar c then acc.reverse ++ c :: sub1go (.scan true) rest
    else ipMask ++ c :: sub1go (.scan (isWordChar c)) rest

/-- `re.sub(r'\b\d+\.\d+\.\d+\.\d+\b', '\x7bIP\x7d', s)`. -/
def sub1 (l : List Char) : List Char := sub1go (.scan false) l

/-- Match test for rule 2 at the head of `l` given the previous character's
wordness `pc`: a `\b`, then exactly 36 characters of `[0-9a-fA-F-]`, then a
`\b` (there is no backtracking inside a fixed-width class repetition). -/
def uuidMatchAt (pc : Bool) (l : List Char) : Bool :=
  match l with
  | [] => false
  | c :: _ =>
    let w := l.take 36
    (pc != isWordChar c) && w.length = 36 && w.all isUuidChar &&
      (match w.getLast? with
       | none => false
       | some lastc =>
         isWordChar lastc != (match l.get? 36 with
                              | none => false
                              | some nc => isWordChar nc))

/-- States for rule 2: plain scanning, or consuming the remaining characters
of a confirmed 36-character match (`skip k` = `k` characters still to
consume; the last consumed character provides the wordness context for the
resumed scan).  `skip` is only ever entered with `k ≥ 1`. -/
inductive UuidSt where
  | scan (pc : Bool)
  | skip (k : Nat)
deriving Repr, DecidableEq

/-- One-pass substitution `\b[0-9a-fA-F-]{36}\b` ↦ `{UUID}` (rule 2). -/
def sub2go : UuidSt → List Char → List Char
  | .scan _, [] => []
  | .skip _, [] => []
  | .scan pc, c :: rest =>
    if uuidMatchAt pc (c :: rest) then uuidMask ++ sub2go (.skip 35) rest
    else c :: sub2go (.scan (isWordChar c)) rest
  | .skip (k+1), c :: rest =>
    if k = 0 then sub2go (.scan (isWordChar c)) rest
    else sub2go (.skip k) rest
  | .skip 0, l => l

/-- `re.sub(r'\b[0-9a-fA-F-]{36}\b', '\x7bUUID\x7d', s)`. -/
def sub2 (l : List Char) : List Char := sub2go (.scan false) l

/-- States for rule 3: plain scanning, or inside a digit run that started at
a `\b` (reversed run in `acc`). -/
inductive NumSt where
  | scan (pc : Bool)
  | run (acc : List Char)
deriving Repr, DecidableEq

/-- One-pass substitution `\b\d+\b` ↦ `{NUM}` (rule 3).  A run that ends at a
word character is emitted unchanged (no `\b` after it, and no position inside
it can start a match). -/
def sub3go : NumSt → List Char → List Char
  | .scan _, [] => []
  | .run _, [] => numMask
  | .scan pc, c :: rest =>
    if isDigitChar c && !pc then sub3go (.run [c]) rest
    else c :: sub3go (.scan (isWordChar c)) rest
  | .run acc, c :: rest =>
    if isDigitChar c then sub3go (.run (c :: acc)) rest
    else if isWordChar c then acc.reverse ++ c :: sub3go (.scan true) rest
    else numMask ++ c :: sub3go (.scan (isWordChar c)) rest

/-- `re.sub(r'\b\d+\b', '\x7bNUM\x7d', s)`. -/
def sub3 (l : List Char) : List Char := sub3go (.scan false) l

/-- States for rule 4: plain scanning, or after an opening quote with the
(reversed) scanned content.  `.` does not match a newline, so a newline
aborts the attempt. -/
inductive StrSt where
  | scan
  | inq (acc : List Char)
deriving Repr, DecidableEq

/-- One-pass substitution `'.*?'` ↦ `'{STR}'` (rule 4): lazy matching pairs
each opening quote with the next quote on the same line. -/
def sub4go : StrSt → List Char → List Char
  | .scan, [] => []
  | .inq acc, [] => '\'' :: acc.reverse
  | .scan, c :: rest =>
    if c = '\'' then sub4go (.inq []) rest
    else c :: sub4go .scan rest
  | .inq acc, c :: rest =>
    if c = '\'' then strMask ++ sub4go .scan rest
    else if c = '\n' then '\'' :: acc.reverse ++ '\n' :: sub4go .scan rest
    else sub4go (.inq (c :: acc)) rest

/-- `re.sub(r"'.*?'", "'\x7bSTR\x7d'", s)`. -/
def sub4 (l : List Char) : List Char := sub4go .scan l

/-- The full masking of `_cluster_logs`: the four substitutions applied in
the source's order. -/
def maskChars (l : List Char) : List Char := sub4 (sub3 (sub2 (sub1 l)))

/-- Masking on `String`s (the `masked_msg` computation of `_cluster_logs`). -/
def maskMsg (s : String) : String := String.mk (maskChars s.toList)

/-! ## JSON values and the model of `json.loads`

Python's `json.loads` maps JSON `null` to `None`; since `dict.get` also
returns `None` for a missing key, both are modelled by `Json.null`.
Numbers are modelled as integers (inputs with float literals are outside
the model). -/

inductive Json where
  | null
  | bool (b : Bool)
  | num (n : Int)
  | str (s : String)
  | arr (xs : List Json)
  | obj (kvs : List (String × Json))
deriving Repr

/-- Python truthiness of a parsed JSON value (`None`, `False`, `0`, `''`,
`[]`, `\x7b\x7d` are falsy). -/
def truthy : Json → Bool
  | .null => false
  | .bool b => b
  | .num n => n != 0
  | .str s => !(s = "")
  | .arr xs => !xs.isEmpty
  | .obj kvs => !kvs.isEmpty

/-- `d.get(k)` on a Python dict built from a JSON object: the last binding of
a duplicated key wins; a missing key gives `None` (= `Json.null`). -/
def jGet (kvs : List (String × Json)) (k : String) : Json :=
  match kvs.reverse.find? (fun p => p.1 == k) with
  | some p => p.2
  | none => .null

/-- Python `a or b` on parsed JSON values. -/
def pyOrJ (a b : Json) : Json := if truthy a then a else b

/-- JSON whitespace accepted by the parser (strictly smaller than Python's
`str.strip` whitespace: no `\x0b`/`\x0c`). -/
def isJsonWs (c : Char) : Bool := c = ' ' || c = '\t' || c = '\n' || c = '\r'

def skipWsJ (l : List Char) : List Char := l.dropWhile isJsonWs

/-- String-literal body parser: consumes up to the closing quote, handling
the JSON escapes.  Control characters are rejected as in Python. -/
def parseJStr (acc : List Char) : List Char → Option (String × List Char)
  | [] => none
  | c :: rest =>
    if c = '"' then some (String.mk acc.reverse, rest)
    else if c = '\\' then
      match rest with
      | [] => none
      | e :: rest2 =>
        if e = '"' then parseJStr ('"' :: acc) rest2
        else if e = '\\' then parseJStr ('\\' :: acc) rest2
        else if e = '/' then parseJStr ('/' :: acc) rest2
        else if e = 'b' then parseJStr ('\x08' :: acc) rest2
        else if e = 'f' then parseJStr ('\x0c' :: acc) rest2
        else if e = 'n' then parseJStr ('\n' :: acc) rest2
        else if e = 'r' then parseJStr ('\r' :: acc) rest2
        else if e = 't' then parseJStr ('\t' :: acc) rest2
        else if e = 'u' then
          match rest2 with
          | h1 :: h2 :: h3 :: h4 :: rest3 =>
            match isHexChar h1 && isHexChar h2 && isHexChar h3 && isHexChar h4 with
            | true =>
              let v := 4096 * hexVal h1 + 256 * hexVal h2 + 16 * hexVal h3 + hexVal h4
              if h : v < 0xd800 then
                parseJStr (Char.ofNatAux v (by omega) :: acc) rest3
              else if h2 : 0xe000 ≤ v ∧ v < 0x110000 then
                parseJStr (Char.ofNatAux v (by omega) :: acc) rest3
              else none
            | false => none
          | _ => none
        else none
    else if c.toNat < 32 then none
    else parseJStr (c :: acc) rest
  where
    isHexChar (c : Char) : Bool :=
      c.isDigit || ('a' ≤ c && c ≤ 'f') || ('A' ≤ c && c ≤ 'F')
    hexVal (c : Char) : Nat :=
      if c.isDigit then c.toNat - '0'.toNat
      else if 'a' ≤ c && c ≤ 'f' then c.toNat - 'a'.toNat + 10
      else if 'A' ≤ c && c ≤ 'F' then c.toNat - 'A'.toNat + 10
      else 0

/-- Integer numeral: optional minus sign, one or more digits. -/
def parseJNum (l : List Char) : Option (Int × List Char) :=
  match l with
  | '-' :: rest =>
    let ds := rest.takeWhile isDigitChar
    if ds.isEmpty then none
    else some (-(Int.ofNat (natOfDigits ds)), rest.dropWhile isDigitChar)
  | _ =>
    let ds := l.takeWhile isDigitChar
    if ds.isEmpty then none
    else some (Int.ofNat (natOfDigits ds), l.dropWhile isDigitChar)
  where
    natOfDigits (ds : List Char) : Nat :=
      ds.foldl (fun a c => 10 * a + (c.toNat - '0'.toNat)) 0

/-- Parsing modes of the fueled JSON parser: a single value, the items of an
array after `[`, or the fields of an object after `\x7b`. -/
inductive JMode where
  | value
  | arrItems
  | objFields
deriving Repr, DecidableEq

/-- Results of the fueled JSON parser. -/
inductive JRes where
  | val (j : Json) (rest : List Char)
  | items (xs : List Json) (rest : List Char)
  | fields (kvs : List (String × Json)) (rest : List Char)
deriving Repr

/-- Fueled recursive-descent JSON parser. -/
def parseJ : Nat → JMode → List Char → Option JRes
  | 0, _, _ => none
  | fuel + 1, .value, l =>
    match skipWsJ l with
    | [] => none
    | c :: rest =>
      if c = 'n' then
        match rest with
        | 'u' :: 'l' :: 'l' :: r => some (.val .null r)
        | _ => none
      else if c = 't' then
        match rest with
        | 'r' :: 'u' :: 'e' :: r => some (.val (.bool true) r)
        | _ => none
      else if c = 'f' then
        match rest with
        | 'a' :: 'l' :: 's' :: 'e' :: r => some (.val (.bool false) r)
        | _ => none
      else if c = '"' then
        match parseJStr [] rest with
        | some (s, r) => some (.val (.str s) r)
        | none => none
      else if c = '[' then
        match skipWsJ rest with
        | ']' :: r => some (.val (.arr []) r)
        | l' =>
          match parseJ fuel .arrItems l' with
          | some (.items xs r) => some (.val (.arr xs) r)
          | _ => none
      else if c = '\x7b' then
        match skipWsJ rest with
        | '\x7d' :: r => some (.val (.obj []) r)
        | l' =>
          match parseJ fuel .objFields l' with
          | some (.fields kvs r) => some (.val (.obj kvs) r)
          | _ => none
      else if c = '-' || isDigitChar c then
        match parseJNum (c :: rest) with
        | some (n, r) => some (.val (.num n) r)
        | none => none
      else none
  | fuel + 1, .arrItems, l =>
    match parseJ fuel .value l with
    | some (.val j r) =>
      (match skipWsJ r with
       | ',' :: r2 =>
         match parseJ fuel .arrItems r2 with
         | some (.items xs r3) => some (.items (j :: xs) r3)
         | _ => none
       | ']' :: r2 => some (.items [j] r2)
       | _ => none)
    | _ => none
  | fuel + 1, .objFields, l =>
    match skipWsJ l with
    | '"' :: rest =>
      match parseJStr [] rest with
      | some (k, r) =>
        (match skipWsJ r with
         | ':' :: r2 =>
           match parseJ fuel .value r2 with
           | some (.val v r3) =>
             (match skipWsJ r3 with
              | ',' :: r4 =>
                match parseJ fuel .objFields r4 with
                | some (.fields kvs r5) => some (.fields ((k, v) :: kvs) r5)
                | _ => none
              | '\x7d' :: r4 => some (.fields [(k, v)] r4)
              | _ => none)
           | _ => none
         | _ => none)
      | none => none
    | _ => none

/-- Model of `json.loads`: parse one value and require only whitespace after
it; any failure is the model of the `json` exception. -/
def jsonLoads (s : String) : Option Json :=
  match parseJ (2 * s.length + 4) .value s.toList with
  | some (.val j rest) => if (skipWsJ rest).isEmpty then some j else none
  | _ => none

/-! ## `json.dumps` and `str()` on parsed values -/

/-- Escape of one character inside a dumped JSON string (`ensure_ascii`
handling of non-ASCII code points is not modelled). -/
def jEscape (c : Char) : List Char :=
  if c = '"' then ['\\', '"']
  else if c = '\\' then ['\\', '\\']
  else if c = '\n' then ['\\', 'n']
  else if c = '\t' then ['\\', 't']
  else if c = '\r' then ['\\', 'r']
  else [c]

/-- The dumped form of one JSON string literal. -/
def jStrLit (s : String) : String := String.mk ('"' :: (s.toList.flatMap jEscape) ++ ['"'])

mutual

/-- `json.dumps` with the default separators `', '` and `': '`. -/
def jsonDumps : Json → String
  | .null => "null"
  | .bool true => "true"
  | .bool false => "false"
  | .num n => toString n
  | .str s => jStrLit s
  | .arr xs => "[" ++ jsonDumpsList xs ++ "]"
  | .obj kvs => "\x7b" ++ jsonDumpsFields kvs ++ "\x7d"

/-- Comma-joined dumped array items. -/
def jsonDumpsList : List Json → String
  | [] => ""
  | [x] => jsonDumps x
  | x :: y :: rest => jsonDumps x ++ ", " ++ jsonDumpsList (y :: rest)

/-- Comma-joined dumped object fields. -/
def jsonDumpsFields : List (String × Json) → String
  | [] => ""
  | [(k, v)] => jStrLit k ++ ": " ++ jsonDumps v
  | (k, v) :: q :: rest => jStrLit k ++ ": " ++ jsonDumps v ++ ", " ++ jsonDumpsFields (q :: rest)

end

mutual

/-- Python `repr` of a parsed JSON value (string escaping inside `repr` is
not modelled; containers print with single-quoted strings). -/
def pyRepr : Json → String
  | .null => "None"
  | .bool true => "True"
  | .bool false => "False"
  | .num n => toString n
  | .str s => "'" ++ s ++ "'"
  | .arr xs => "[" ++ pyReprList xs ++ "]"
  | .obj kvs => "\x7b" ++ pyReprFields kvs ++ "\x7d"

/-- Comma-joined `repr`s of list items. -/
def pyReprList : List Json → String
  | [] => ""
  | [x] => pyRepr x
  | x :: y :: rest => pyRepr x ++ ", " ++ pyReprList (y :: rest)

/-- Comma-joined `repr`s of dict fields. -/
def pyReprFields : List (String × Json) → String
  | [] => ""
  | [(k, v)] => "'" ++ k ++ "': " ++ pyRepr v
  | (k, v) :: q :: rest => "'" ++ k ++ "': " ++ pyRepr v ++ ", " ++ pyReprFields (q :: rest)

end

/-- Python `str()` of a parsed JSON value, as used by f-string interpolation
and by `str(obj)` for non-dict array elements. -/
def pyStr : Json → String
  | .str s => s
  | j => pyRepr j

/-! ## The three synthesis paths of `_normalize_input` -/

/-- The synthesized line shape `"[\x7bts\x7d] [\x7blvl\x7d] [\x7bcomp\x7d] \x7bmsg\x7d"`. -/
def synthLine (ts lvl comp msg : String) : String :=
  "[" ++ ts ++ "] [" ++ lvl ++ "] [" ++ comp ++ "] " ++ msg

/-- Top-level JSON object path (source lines 38–42):
`ts = parsed.get('timestamp') or parsed.get('time') or ''`,
`lvl = parsed.get('level') or parsed.get('severity') or 'INFO'`,
`comp = parsed.get('component') or parsed.get('service') or ''`,
`msg = parsed.get('message') or parsed.get('msg') or json.dumps(parsed)`. -/
def dictSynthLine (kvs : List (String × Json)) : String :=
  let ts := pyOrJ (jGet kvs "timestamp") (pyOrJ (jGet kvs "time") (.str ""))
  let lvl := pyOrJ (jGet kvs "level") (pyOrJ (jGet kvs "severity") (.str "INFO"))
  let comp := pyOrJ (jGet kvs "component") (pyOrJ (jGet kvs "service") (.str ""))
  let msg := pyOrJ (jGet kvs "message")
    (pyOrJ (jGet kvs "msg") (.str (jsonDumps (.obj kvs))))
  synthLine (pyStr ts) (pyStr lvl) (pyStr comp) (pyStr msg)

/-- JSON array-element path (source lines 44–52): for a dict element,
`ts = obj.get('timestamp') or obj.get('time') or ''`,
`lvl = obj.get('level') or 'INFO'`, `comp = obj.get('component') or ''`,
`msg = obj.get('message') or obj.get('msg') or json.dumps(obj)`; a non-dict
element contributes `str(obj)` as a bare line. -/
def listElemLine : Json → String
  | .obj kvs =>
    let ts := pyOrJ (jGet kvs "timestamp") (pyOrJ (jGet kvs "time") (.str ""))
    let lvl := pyOrJ (jGet kvs "level") (.str "INFO")
    let comp := pyOrJ (jGet kvs "component") (.str "")
    let msg := pyOrJ (jGet kvs "message")
      (pyOrJ (jGet kvs "msg") (.str (jsonDumps (.obj kvs))))
    synthLine (pyStr ts) (pyStr lvl) (pyStr comp) (pyStr msg)
  | j => pyStr j

/-! ## The CSV path

`csv.DictReader` is modelled as plain comma splitting (field quoting and
over-long rows are outside the model): the first line is the header, blank
lines are skipped, each data row maps header names to values positionally,
and a key missing from a short row behaves as `None`. -/

/-- Split on a separator character, keeping empty segments
(`"a,,b"` ↦ `["a", "", "b"]`, `""` ↦ `[""]`). -/
def splitChar (sep : Char) (l : List Char) : List (List Char) :=
  go [] l
  where
    go (acc : List Char) : List Char → List (List Char)
      | [] => [acc.reverse]
      | c :: rest =>
        if c = sep then acc.reverse :: go [] rest
        else go (c :: acc) rest

/-- `row.get(k)` on a DictReader row: header names zipped against the row's
values; the last occurrence of a duplicated header wins. -/
def rowGet (hdr row : List String) (k : String) : Option String :=
  ((hdr.zip row).reverse.find? (fun p => p.1 == k)).map (·.2)

/-- Python `a or b` where `a` is an optional string (`None` and `''` are
falsy) and `b` a string. -/
def pyOrS (a : Option String) (b : String) : String :=
  match a with
  | some v => if v = "" then b else v
  | none => b

/-- One synthesized line per CSV data row (source lines 64–68):
`ts = row.get('timestamp') or row.get('time') or ''`,
`lvl = row.get('level') or row.get('severity') or 'INFO'`,
`comp = row.get('component') or ''`, and
`msg = row.get('message') or row.get('msg') or` the space-join of the values
of columns whose lower-cased header is none of
`timestamp`/`level`/`component`. -/
def csvRowLine (hdr row : List String) : String :=
  let ts := pyOrS (rowGet hdr row "timestamp") (pyOrS (rowGet hdr row "time") "")
  let lvl := pyOrS (rowGet hdr row "level") (pyOrS (rowGet hdr row "severity") "INFO")
  let comp := pyOrS (rowGet hdr row "component") ""
  let joined := String.intercalate " "
    (((hdr.zip row).filter (fun p =>
        !(p.2 = "") &&
          !(p.1.toLower = "timestamp" || p.1.toLower = "level" ||
            p.1.toLower = "component"))).map (·.2))
  let msg := pyOrS (rowGet hdr row "message") (pyOrS (rowGet hdr row "msg") joined)
  synthLine ts lvl comp msg

/-- The CSV strategy of `_normalize_input` (source lines 58–70): only tried
when the input contains both a comma and a newline; header from the first
line, one synthesized line per non-blank data row; `none` models both a csv
exception and the `if lines:` guard failing. -/
def csvTry (s : String) : Option String :=
  let cs := s.toList
  if cs.contains ',' && cs.contains '\n' then
    match (splitChar '\n' cs).map String.mk with
    | [] => none
    | hdrLine :: dataLines =>
      let hdr := (splitChar ',' hdrLine.toList).map String.mk
      let rows := (dataLines.filter (fun l => !(l = ""))).map
        (fun l => (splitChar ',' l.toList).map String.mk)
      let lines := rows.map (csvRowLine hdr)
      if lines.isEmpty then none else some (String.intercalate "\n" lines)
  else none

/-- `_normalize_input` (source lines 25–74): try JSON — an object with a
string `logs` field returns that field, any other object synthesizes one
aliased line, an array synthesizes one line per element; a JSON failure or a
scalar JSON value falls through to the CSV strategy; failing that, the input
is returned unchanged. -/
def normalizeInput (s : String) : String :=
  match jsonLoads s with
  | some (.obj kvs) =>
    match jGet kvs "logs" with
    | .str t => t
    | _ => dictSynthLine kvs
  | some (.arr xs) => String.intercalate "\n" (xs.map listElemLine)
  | _ =>
    match csvTry s with
    | some t => t
    | none => s

/-! ## Line parsing (`_parse_lines`)

The source matches each stripped line against
`\[(.*?)\]\s+\[(\w+)\]\s+(?:\[(.*?)\]\s+)?(.*)` with `re.match`.  The
scanners below implement its backtracking semantics: the lazy groups extend
to successive `]` candidates until the rest of the pattern matches, `.`
never matches a newline, and the optional component group is skipped when no
candidate works (after which `(.*)` always succeeds). -/

/-- Python `str.strip()` restricted to ASCII whitespace. -/
def pyStrip (s : String) : String :=
  String.mk (((s.toList.dropWhile isSpaceChar).reverse.dropWhile isSpaceChar).reverse)

/-- Attempt of the optional component group `(?:\[(.*?)\]\s+)?` after its
opening `[`: lazily extend the content to each `]` followed by at least one
whitespace character; return the content together with the text after that
whitespace run. -/
def compScan (acc : List Char) : List Char → Option (String × List Char)
  | [] => none
  | c :: rest =>
    if c = ']' then
      if (rest.takeWhile isSpaceChar).isEmpty then compScan (c :: acc) rest
      else some (String.mk acc.reverse, rest.dropWhile isSpaceChar)
    else if c = '\n' then none
    else compScan (c :: acc) rest

/-- The pattern after a candidate closing `]` of the timestamp group:
`\s+\[(\w+)\]\s+(?:\[(.*?)\]\s+)?(.*)`.  Returns level, optional component
and message. -/
def tailMatch (l : List Char) : Option (String × Option String × String) :=
  if (l.takeWhile isSpaceChar).isEmpty then none
  else
    match l.dropWhile isSpaceChar with
    | '[' :: r2 =>
      let lvl := r2.takeWhile isWordChar
      if lvl.isEmpty then none
      else
        match r2.dropWhile isWordChar with
        | ']' :: r3 =>
          if (r3.takeWhile isSpaceChar).isEmpty then none
          else
            let r4 := r3.dropWhile isSpaceChar
            match r4 with
            | '[' :: r5 =>
              (match compScan [] r5 with
               | some (comp, r6) =>
                 some (String.mk lvl, some comp, String.mk (r6.takeWhile (fun c => !(c = '\n'))))
               | none =>
                 some (String.mk lvl, none, String.mk (r4.takeWhile (fun c => !(c = '\n')))))
            | _ => some (String.mk lvl, none, String.mk (r4.takeWhile (fun c => !(c = '\n'))))
        | _ => none
    | _ => none

/-- Lazy scan of the timestamp group `(.*?)`: extend the content to each `]`
until `tailMatch` succeeds on the rest. -/
def g1scan (acc : List Char) : List Char → Option (String × String × Option String × String)
  | [] => none
  | c :: rest =>
    if c = ']' then
      match tailMatch rest with
      | some (lvl, comp, msg) => some (String.mk acc.reverse, lvl, comp, msg)
      | none => g1scan (c :: acc) rest
    else if c = '\n' then none
    else g1scan (c :: acc) rest

/-- `re.match` of the full line pattern: groups
(timestamp, level, component?, message). -/
def matchLogLine : List Char → Option (String × String × Option String × String)
  | '[' :: rest => g1scan [] rest
  | _ => none

/-- One parsed entry of `parsed_data` (source lines 110–117). -/
structure LogEntry where
  timestamp : String
  level : String
  component : String
  message : String
  raw : String
deriving Repr, DecidableEq

/-- Parse one line (source lines 107–117): match the stripped line; the
component defaults to `"System"` when the group is missing or empty
(`component or "System"`); `raw` keeps the unstripped line. -/
def parseLine (line : String) : Option LogEntry :=
  match matchLogLine (pyStrip line).toList with
  | some (ts, lvl, comp, msg) =>
    some { timestamp := ts, level := lvl,
           component := (match comp with
                         | some c => if c = "" then "System" else c
                         | none => "System"),
           message := msg, raw := line }
  | none => none

/-- `self.lines` (source line 22): normalize, strip the whole text, split on
newlines, drop blank lines. -/
def logLines (s : String) : List String :=
  ((splitChar '\n' (pyStrip (normalizeInput s)).toList).map String.mk).filter
    (fun l => !(pyStrip l = ""))

/-- `self.parsed_data` after `_parse_lines`. -/
def parsedEntries (s : String) : List LogEntry :=
  (logLines s).filterMap parseLine

/-! ## Clustering (`_cluster_logs`) -/

/-- One cluster (source lines 137–144); the `example` field of the source is
called `example'` here (`example` is a Lean keyword). -/
structure Cluster where
  pattern : String
  level : String
  count : Nat
  example' : String
  timestamps : List String
deriving Repr, DecidableEq

/-- `signature = f"[\x7bentry['level']\x7d] \x7bmasked_msg\x7d"`. -/
def sigOf (e : LogEntry) : String := "[" ++ e.level ++ "] " ++ maskMsg e.message

/-- The signature a cluster was filed under. -/
def clusterKey (c : Cluster) : String := "[" ++ c.level ++ "] " ++ c.pattern

/-- A fresh cluster for an unseen signature, already holding the entry that
created it (the source creates it with `count 0` and immediately increments
and appends). -/
def newCluster (e : LogEntry) : Cluster :=
  { pattern := maskMsg e.message, level := e.level, count := 1,
    example' := e.message, timestamps := [e.timestamp] }

/-- Folding one more entry into an existing cluster: count increments and
the timestamp appends; `pattern`, `level`, `example'` are untouched. -/
def bumpCluster (e : LogEntry) (c : Cluster) : Cluster :=
  { c with count := c.count + 1, timestamps := c.timestamps ++ [e.timestamp] }

/-- Update the first (unique) binding of `sig` in the signature-keyed
association list. -/
def updFirst : List (String × Cluster) → String → LogEntry → List (String × Cluster)
  | [], _, _ => []
  | (k, c) :: rest, sig, e =>
    if k == sig then (k, bumpCluster e c) :: rest
    else (k, c) :: updFirst rest sig e

/-- One iteration of the `for entry in self.parsed_data` loop: the Python
dict keyed by signatures in insertion order is an association list. -/
def foldStep (acc : List (String × Cluster)) (e : LogEntry) : List (String × Cluster) :=
  if acc.any (fun p => p.1 == sigOf e) then updFirst acc (sigOf e) e
  else acc ++ [(sigOf e, newCluster e)]

/-- The clusters dict after the loop, in insertion order. -/
def clusterFold (entries : List LogEntry) : List (String × Cluster) :=
  entries.foldl foldStep []

/-- Stable insertion of a cluster into a count-descending list: among equal
counts the inserted (originally earlier) cluster comes first, as with
Python's stable `sorted(key=count, reverse=True)`. -/
def insDesc (c : Cluster) : List Cluster → List Cluster
  | [] => [c]
  | d :: rest => if d.count ≤ c.count then c :: d :: rest else d :: insDesc c rest

/-- Stable descending sort by count. -/
def sortDesc : List Cluster → List Cluster
  | [] => []
  | c :: rest => insDesc c (sortDesc rest)

/-- `_cluster_logs` (source lines 119–149): cluster, sort by descending
count, truncate to the top 20. -/
def clusterLogs (entries : List LogEntry) : List Cluster :=
  (sortDesc ((clusterFold entries).map (·.2))).take 20

/-! ## Metric extraction (`_extract_metrics`) -/

def digitsToNat (ds : List Char) : Nat :=
  ds.foldl (fun a c => 10 * a + (c.toNat - '0'.toNat)) 0

/-- Match of `CPU:\s*(\d+)%` anchored at the head. -/
def cpuAt (l : List Char) : Option Nat :=
  match l with
  | 'C' :: 'P' :: 'U' :: ':' :: r =>
    let r2 := r.dropWhile isSpaceChar
    let ds := r2.takeWhile isDigitChar
    if ds.isEmpty then none
    else
      match r2.dropWhile isDigitChar with
      | '%' :: _ => some (digitsToNat ds)
      | _ => none
  | _ => none

/-- `re.search(r'CPU:\s*(\d+)%', msg)`: the leftmost match's value. -/
def searchCpu : List Char → Option Nat
  | [] => none
  | c :: rest =>
    match cpuAt (c :: rest) with
    | some v => some v
    | none => searchCpu rest

/-- Match of `MEM:\s*(\d+)` anchored at the head. -/
def memAt (l : List Char) : Option Nat :=
  match l with
  | 'M' :: 'E' :: 'M' :: ':' :: r =>
    let r2 := r.dropWhile isSpaceChar
    let ds := r2.takeWhile isDigitChar
    if ds.isEmpty then none else some (digitsToNat ds)
  | _ => none

/-- `re.search(r'MEM:\s*(\d+)', msg)`. -/
def searchMem : List Char → Option Nat
  | [] => none
  | c :: rest =>
    match memAt (c :: rest) with
    | some v => some v
    | none => searchMem rest

/-- Case-insensitive literal prefix: returns the rest on success. -/
def ciPrefixDrop : List Char → List Char → Option (List Char)
  | [], r => some r
  | _ :: _, [] => none
  | k :: ks, c :: cs => if c.toLower = k.toLower then ciPrefixDrop ks cs else none

/-- After one of the latency keywords: `:\s*(\d+)ms`, case-insensitive. -/
def latAfterKw (r : List Char) : Option Nat :=
  match r with
  | ':' :: r1 =>
    let r2 := r1.dropWhile isSpaceChar
    let ds := r2.takeWhile isDigitChar
    if ds.isEmpty then none
    else
      match r2.dropWhile isDigitChar with
      | m :: s :: _ =>
        if m.toLower = 'm' && s.toLower = 's' then some (digitsToNat ds) else none
      | _ => none
  | _ => none

/-- Match of `(?:Duration|latency|time):\s*(\d+)ms` (IGNORECASE) anchored at
the head: the alternatives are tried left to right. -/
def latAt (l : List Char) : Option Nat :=
  match ciPrefixDrop "Duration".toList l with
  | some r =>
    (match latAfterKw r with
     | some v => some v
     | none => latAtRest l)
  | none => latAtRest l
  where
    latAtRest (l : List Char) : Option Nat :=
      match ciPrefixDrop "latency".toList l with
      | some r =>
        (match latAfterKw r with
         | some v => some v
         | none => latAtTime l)
      | none => latAtTime l
    latAtTime (l : List Char) : Option Nat :=
      match ciPrefixDrop "time".toList l with
      | some r => latAfterKw r
      | none => none

/-- `re.search` for the latency pattern. -/
def searchLat : List Char → Option Nat
  | [] => none
  | c :: rest =>
    match latAt (c :: rest) with
    | some v => some v
    | none => searchLat rest

/-- The values-so-far accumulator of the extraction loop. -/
structure SeriesAcc where
  cpu : List Nat
  mem : List Nat
  lat : List Nat
deriving Repr, DecidableEq

/-- One iteration of the `for entry in self.parsed_data` loop of
`_extract_metrics` (source lines 157–170). -/
def seriesStep (acc : SeriesAcc) (e : LogEntry) : SeriesAcc :=
  let m := e.message.toList
  { cpu := match searchCpu m with | some v => acc.cpu ++ [v] | none => acc.cpu,
    mem := match searchMem m with | some v => acc.mem ++ [v] | none => acc.mem,
    lat := match searchLat m with | some v => acc.lat ++ [v] | none => acc.lat }

/-- The three series after the loop. -/
def extractSeries (entries : List LogEntry) : SeriesAcc :=
  entries.foldl seriesStep ⟨[], [], []⟩

/-- The metric summary dict (source lines 172–181).  `avg_*` model
`round(statistics.mean(...), 2)` by exact rational arithmetic with
round-half-to-even (the float detour of the source is not modelled). -/
structure Metrics where
  avg_cpu : ℚ
  max_cpu : Nat
  avg_memory : ℚ
  max_latency : Nat
  metric_points : Nat
  cpu_series : List Nat
  memory_series : List Nat
  latency_series : List Nat
deriving Repr, DecidableEq

/-- Round-half-to-even to an integer. -/
def roundHalfEven (x : ℚ) : ℤ :=
  let f := Int.floor x
  let r := x - f
  if r < 1/2 then f
  else if 1/2 < r then f + 1
  else if f % 2 = 0 then f else f + 1

/-- `round(x, 2)` on exact rationals. -/
def round2 (x : ℚ) : ℚ := (roundHalfEven (x * 100) : ℚ) / 100

/-- `statistics.mean` on a list of naturals, as an exact rational. -/
def meanQ (l : List Nat) : ℚ := ((l.sum : ℤ) : ℚ) / (l.length : ℚ)

/-- `max(l)` with the source's `if l else 0` guard. -/
def maxOr0 (l : List Nat) : Nat :=
  if l.isEmpty then 0 else l.foldl Nat.max 0

/-- `_extract_metrics` (source lines 151–183). -/
def extractMetrics (entries : List LogEntry) : Metrics :=
  let s := extractSeries entries
  { avg_cpu := if s.cpu.isEmpty then 0 else round2 (meanQ s.cpu),
    max_cpu := maxOr0 s.cpu,
    avg_memory := if s.mem.isEmpty then 0 else round2 (meanQ s.mem),
    max_latency := maxOr0 s.lat,
    metric_points := s.cpu.length,
    cpu_series := s.cpu,
    memory_series := s.mem,
    latency_series := s.lat }

/-! ## Anomalies, correlations, health (`_detect_anomalies`,
`_find_correlations`, `_calculate_health`) -/

def cpuAnomalyText (v : Nat) : String :=
  "Critical CPU Spike detected: " ++ toString v ++ "%"

def latAnomalyText (v : Nat) : String :=
  "High Latency detected: " ++ toString v ++ "ms"

/-- `_detect_anomalies` (source lines 185–191). -/
def detectAnomalies (m : Metrics) : List String :=
  (if 80 < m.max_cpu then [cpuAnomalyText m.max_cpu] else []) ++
    (if 2000 < m.max_latency then [latAnomalyText m.max_latency] else [])

/-- `p` starts `l`. -/
def listStarts : List Char → List Char → Bool
  | [], _ => true
  | _ :: _, [] => false
  | a :: as_, b :: bs => a = b && listStarts as_ bs

/-- `needle in hay` for chars. -/
def hasInfix (needle : List Char) : List Char → Bool
  | [] => needle.isEmpty
  | c :: rest => listStarts needle (c :: rest) || hasInfix needle rest

/-- Python `needle in hay` on strings. -/
def strContains (hay needle : String) : Bool := hasInfix needle.toList hay.toList

def corrText : String :=
  "Strong correlation: Database Errors are likely causing Latency spikes."

/-- `_find_correlations` (source lines 193–201); `'Latency' in a or
'Latency' in str(a)` collapses to one substring test on strings. -/
def findCorrelations (anomalies : List String) (clusters : List Cluster) : List String :=
  let hasLat := anomalies.any (fun a => strContains a "Latency")
  let hasDb := clusters.any
    (fun c => strContains c.pattern.toLower "database" && c.level == "ERROR")
  if hasLat && hasDb then [corrText] else []

/-- Total count of entries in ERROR/CRITICAL clusters. -/
def errCount (clusters : List Cluster) : Nat :=
  ((clusters.filter (fun c => c.level == "ERROR" || c.level == "CRITICAL")).map
    (·.count)).sum

/-- `_calculate_health` (source lines 203–210), in exact integer
arithmetic: `max(0, 100 - 5*errors - 10*anomalies)`. -/
def calcHealth (clusters : List Cluster) (anomalies : List String) : Int :=
  max 0 (100 - 5 * (errCount clusters : Int) - 10 * (anomalies.length : Int))

/-! ## Report assembly (`analyze`, `_prepare_llm_context`,
`_format_clusters`) -/

/-- `_format_clusters` (source lines 227–231). -/
def formatClusters (clusters : List Cluster) : String :=
  clusters.foldl
    (fun t c => t ++ "- [" ++ c.level ++ "] x" ++ toString c.count ++ ": " ++ c.pattern ++ "\n")
    ""

/-- `json.dumps(anomalies, indent=2)`. -/
def dumpsAnomalies (anomalies : List String) : String :=
  match anomalies with
  | [] => "[]"
  | _ =>
    "[\n" ++ String.intercalate ",\n" (anomalies.map (fun a => "  " ++ jStrLit a)) ++ "\n]"

/-- `_prepare_llm_context` (source lines 212–225). -/
def prepareLlmContext (clusters : List Cluster) (anomalies : List String) (m : Metrics) : String :=
  "\nAUTOMATED ANALYSIS REPORT:\n\n1. TOP LOG PATTERNS (Clustered):\n" ++
    formatClusters clusters ++
    "\n2. DETECTED METRICS:\n- Max CPU: " ++ toString m.max_cpu ++
    "%\n- Max Latency: " ++ toString m.max_latency ++
    "ms\n\n3. DETECTED ANOMALIES:\n" ++ dumpsAnomalies anomalies ++ "\n"

/-- `dict(Counter(levels))`: counts keyed in first-occurrence order. -/
def bumpCount : List (String × Nat) → String → List (String × Nat)
  | [], k => [(k, 1)]
  | (k', n) :: rest, k =>
    if k' == k then (k', n + 1) :: rest else (k', n) :: bumpCount rest k

def levelCounts (entries : List LogEntry) : List (String × Nat) :=
  entries.foldl (fun acc e => bumpCount acc e.level) []

/-- `list(\x7bentry['component'] for ...\x7d)`: the set of truthy components;
the arbitrary set order of Python is modelled as first-seen order. -/
def componentsOf (entries : List LogEntry) : List String :=
  ((entries.filter (fun e => !(e.component = ""))).map (·.component)).foldl
    (fun acc c => if acc.contains c then acc else acc ++ [c]) []

/-- The analysis report returned by `analyze` (source lines 92–101). -/
structure Report where
  parsed_entries : Nat
  log_levels : List (String × Nat)
  components : List String
  metrics_summary : Metrics
  anomalies : List String
  correlations : List String
  health_score : Int
  analysis_ready_for_llm : String
deriving Repr, DecidableEq

/-- The report assembled from the parsed entries (steps 2–5 and the return
of `analyze`, source lines 76–101). -/
def reportOfEntries (entries : List LogEntry) : Report :=
  let clusters := clusterLogs entries
  let metrics := extractMetrics entries
  let anomalies := detectAnomalies metrics
  { parsed_entries := entries.length,
    log_levels := levelCounts entries,
    components := componentsOf entries,
    metrics_summary := metrics,
    anomalies := anomalies,
    correlations := findCorrelations anomalies clusters,
    health_score := calcHealth clusters anomalies,
    analysis_ready_for_llm := prepareLlmContext clusters anomalies metrics }

/-- `analyze` (source lines 76–101) on one raw input string: parse the
normalized lines, then assemble the report. -/
def analyze (s : String) : Report := reportOfEntries (parsedEntries s)

/-! ## Derived pipeline views used by the statements -/

/-- Sum of the `count` fields of a cluster list. -/
def sumCounts (clusters : List Cluster) : Nat := (clusters.map (·.count)).sum

/-! ## Claim C2: the field-aliasing rule of the three synthesis paths -/

/-- The aliasing rule as the spec words it: each field is taken from the
first truthy value among its alias keys, with a default (JSON-object
sources). -/
def aliasFirstJ (kvs : List (String × Json)) (keys : List String) (dflt : Json) : Json :=
  match keys with
  | [] => dflt
  | k :: rest => pyOrJ (jGet kvs k) (aliasFirstJ kvs rest dflt)

/-- The aliasing rule over CSV rows. -/
def aliasFirstS (hdr row : List String) (keys : List String) (dflt : String) : String :=
  match keys with
  | [] => dflt
  | k :: rest => pyOrS (rowGet hdr row k) (aliasFirstS hdr row rest dflt)

/-- C2 (counterexample): the three synthesis paths do *not* apply one and
the same aliasing rule.  On the same object
`\x7b"severity": "ERROR", "msg": "x"\x7d` the top-level-object path honours the
`severity` alias while the array-element path does not; on a CSV row the
`service` alias is ignored although the object path honours it; and a
`date` field is ignored by every path (there is no `date` alias at all). -/
theorem C2_counterexample :
    listElemLine (.obj [("severity", .str "ERROR"), ("msg", .str "x")]) = "[] [INFO] [] x"
    ∧ dictSynthLine [("severity", .str "ERROR"), ("msg", .str "x")] = "[] [ERROR] [] x"
    ∧ listElemLine (.obj [("severity", .str "ERROR"), ("msg", .str "x")])
        ≠ dictSynthLine [("severity", .str "ERROR"), ("msg", .str "x")]
    ∧ csvRowLine ["service", "msg"] ["S", "x"] = "[] [INFO] [] x"
    ∧ dictSynthLine [("service", .str "S"), ("msg", .str "x")] = "[] [INFO] [S] x"
    ∧ dictSynthLine [("date", .str "D"), ("msg", .str "x")] = "[] [INFO] [] x" := by
  refine ⟨by decide, by decide, by decide, by decide, by decide, by decide⟩

/-- C2 (amended): the three synthesis paths share the output shape, the
timestamp aliases `timestamp|time` (never `date`) and the message aliases
`message|msg`, but differ on the other fields: the top-level-object path
takes level from `level|severity` and component from `component|service`,
the array-element path takes level from `level` only and component from
`component` only, and the CSV path takes level from `level|severity` but
component from `component` only. -/
theorem C2_amended_alias_rule :
    (∀ kvs, dictSynthLine kvs =
      synthLine (pyStr (aliasFirstJ kvs ["timestamp", "time"] (.str "")))
        (pyStr (aliasFirstJ kvs ["level", "severity"] (.str "INFO")))
        (pyStr (aliasFirstJ kvs ["component", "service"] (.str "")))
        (pyStr (aliasFirstJ kvs ["message", "msg"] (.str (jsonDumps (.obj kvs)))))) ∧
    (∀ kvs, listElemLine (.obj kvs) =
      synthLine (pyStr (aliasFirstJ kvs ["timestamp", "time"] (.str "")))
        (pyStr (aliasFirstJ kvs ["level"] (.str "INFO")))
        (pyStr (aliasFirstJ kvs ["component"] (.str "")))
        (pyStr (aliasFirstJ kvs ["message", "msg"] (.str (jsonDumps (.obj kvs)))))) ∧
    (∀ hdr row, csvRowLine hdr row =
      synthLine (aliasFirstS hdr row ["timestamp", "time"] "")
        (aliasFirstS hdr row ["level", "severity"] "INFO")
        (aliasFirstS hdr row ["component"] "")
        (aliasFirstS hdr row ["message", "msg"]
          (String.intercalate " "
            (((hdr.zip row).filter (fun p =>
                !(p.2 = "") &&
                  !(p.1.toLower = "timestamp" || p.1.toLower = "level" ||
                    p.1.toLower = "component"))).map (·.2))))) := by
  refine ⟨fun kvs => rfl, fun kvs => rfl, fun hdr row => rfl⟩

/-! ## Claim C5: the health-score formula and its bounds -/

/-- C5: for every input the health score is exactly
`max 0 (100 - 5*errorCount - 10*anomalyCount)` over the returned clusters
and anomalies, computed in exact integer arithmetic, hence always within
`[0, 100]`. -/
theorem C5_health_formula (s : String) :
    (analyze s).health_score =
      max 0 (100 - 5 * (errCount (clusterLogs (parsedEntries s)) : Int)
        - 10 * ((analyze s).anomalies.length : Int))
    ∧ 0 ≤ (analyze s).health_score
    ∧ (analyze s).health_score ≤ 100 := by
  refine ⟨rfl, le_max_left _ _, ?_⟩
  have : (analyze s).health_score =
      max 0 (100 - 5 * (errCount (clusterLogs (parsedEntries s)) : Int)
        - 10 * ((analyze s).anomalies.length : Int)) := rfl
  rw [this]
  exact max_le (by norm_num) (by omega)

/-- C5 (witness for the hypothesis-free bound shape is not needed; this
instance just records a concrete evaluation). -/
theorem C5_health_concrete : (analyze "[t] [ERROR] boom").health_score = 95 := by decide

/-! ## Claim C8: the anomaly rule -/

/-- The two anomaly texts are never equal (they differ at the first
character). -/
theorem cpuAnomalyText_ne_latAnomalyText (a b : Nat) :
    cpuAnomalyText a ≠ latAnomalyText b := by
  intro h
  have h2 : (cpuAnomalyText a).data.head? = (latAnomalyText b).data.head? := by rw [h]
  have hc : (cpuAnomalyText a).data.head? = some 'C' := by
    simp only [cpuAnomalyText, String.data_append, List.head?_append]
    rfl
  have hl : (latAnomalyText b).data.head? = some 'H' := by
    simp only [latAnomalyText, String.data_append, List.head?_append]
    rfl
  rw [hc, hl] at h2
  exact absurd h2 (by decide)

/-- Symmetric form of the previous lemma. -/
theorem latAnomalyText_ne_cpuAnomalyText (a b : Nat) :
    latAnomalyText a ≠ cpuAnomalyText b :=
  fun h => cpuAnomalyText_ne_latAnomalyText b a h.symm

/-- C8: the anomalies of a run are exactly: a CPU-spike entry naming
`max_cpu` iff `max_cpu > 80`, a high-latency entry naming `max_latency` iff
`max_latency > 2000`, and nothing else — hence at most two anomalies; and
the report's anomaly list is exactly `detectAnomalies` of the run's metric
summary. -/
theorem C8_anomaly_rule :
    (∀ m : Metrics,
      (cpuAnomalyText m.max_cpu ∈ detectAnomalies m ↔ 80 < m.max_cpu) ∧
      (latAnomalyText m.max_latency ∈ detectAnomalies m ↔ 2000 < m.max_latency) ∧
      (∀ x ∈ detectAnomalies m,
        x = cpuAnomalyText m.max_cpu ∨ x = latAnomalyText m.max_latency) ∧
      (detectAnomalies m).length ≤ 2) ∧
    (∀ s, (analyze s).anomalies = detectAnomalies (extractMetrics (parsedEntries s))) := by
  constructor
  · intro m
    unfold detectAnomalies
    by_cases h1 : 80 < m.max_cpu <;> by_cases h2 : 2000 < m.max_latency <;>
      simp [h1, h2, cpuAnomalyText_ne_latAnomalyText, latAnomalyText_ne_cpuAnomalyText]
  · intro s
    rfl

/-! ## Claim C10: at most one metric value per series per entry -/

/-- The three series accumulate by `foldl`; unfolded to `filterMap` form. -/
theorem extractSeries_eq_filterMap (entries : List LogEntry) (acc : SeriesAcc) :
    entries.foldl seriesStep acc =
      { cpu := acc.cpu ++ entries.filterMap (fun e => searchCpu e.message.toList),
        mem := acc.mem ++ entries.filterMap (fun e => searchMem e.message.toList),
        lat := acc.lat ++ entries.filterMap (fun e => searchLat e.message.toList) } := by
  induction entries generalizing acc with
  | nil => simp
  | cons e rest ih =>
    rw [List.foldl_cons, ih]
    simp only [seriesStep, List.filterMap_cons]
    cases searchCpu e.message.toList <;> cases searchMem e.message.toList <;>
      cases searchLat e.message.toList <;> simp

/-- C10: each parsed entry contributes at most one value per series — the
series are the `filterMap` of a per-entry first-match function, so their
lengths are bounded by the entry count; and the per-message search returns
only the first occurrence when a pattern occurs twice in one message. -/
theorem C10_first_match_only :
    (∀ entries : List LogEntry,
      (extractMetrics entries).cpu_series =
        entries.filterMap (fun e => searchCpu e.message.toList) ∧
      (extractMetrics entries).memory_series =
        entries.filterMap (fun e => searchMem e.message.toList) ∧
      (extractMetrics entries).latency_series =
        entries.filterMap (fun e => searchLat e.message.toList) ∧
      (extractMetrics entries).cpu_series.length ≤ entries.length ∧
      (extractMetrics entries).memory_series.length ≤ entries.length ∧
      (extractMetrics entries).latency_series.length ≤ entries.length) ∧
    searchCpu "CPU: 5% then CPU: 7%".toList = some 5 ∧
    searchMem "MEM: 3 MEM: 9".toList = some 3 ∧
    searchLat "time: 10ms time: 20ms".toList = some 10 := by
  refine ⟨fun entries => ?_, by decide, by decide, by decide⟩
  have h := extractSeries_eq_filterMap entries ⟨[], [], []⟩
  have hc : (extractMetrics entries).cpu_series =
      entries.filterMap (fun e => searchCpu e.message.toList) := by
    show (extractSeries entries).cpu = _
    rw [extractSeries, h]
    simp
  have hm : (extractMetrics entries).memory_series =
      entries.filterMap (fun e => searchMem e.message.toList) := by
    show (extractSeries entries).mem = _
    rw [extractSeries, h]
    simp
  have hl : (extractMetrics entries).latency_series =
      entries.filterMap (fun e => searchLat e.message.toList) := by
    show (extractSeries entries).lat = _
    rw [extractSeries, h]
    simp
  exact ⟨hc, hm, hl, by rw [hc]; exact List.length_filterMap_le _ _,
    by rw [hm]; exact List.length_filterMap_le _ _,
    by rw [hl]; exact List.length_filterMap_le _ _⟩

/-! ## Claim C7: the correlation rule -/

set_option maxHeartbeats 2000000

/-- C7: the correlation list is `[corrText]` exactly when some anomaly text
contains `"Latency"` (case-sensitive) and some returned cluster has level
`"ERROR"` with `"database"` in its lower-cased pattern; otherwise it is
empty, and it never holds more than one string; and the report's
correlations are `findCorrelations` of the run's anomalies and clusters. -/
theorem C7_correlation_rule :
    (∀ (ans : List String) (cls : List Cluster),
      (findCorrelations ans cls = [corrText] ↔
        ((∃ a ∈ ans, strContains a "Latency" = true) ∧
          ∃ c ∈ cls, strContains c.pattern.toLower "database" = true ∧ c.level = "ERROR")) ∧
      (findCorrelations ans cls = [corrText] ∨ findCorrelations ans cls = []) ∧
      (findCorrelations ans cls).length ≤ 1) ∧
    (∀ s, (analyze s).correlations =
      findCorrelations (detectAnomalies (extractMetrics (parsedEntries s)))
        (clusterLogs (parsedEntries s))) := by
  constructor
  · intro ans cls
    have hcond : findCorrelations ans cls = [corrText] ∨ findCorrelations ans cls = [] := by
      unfold findCorrelations
      by_cases hl : (ans.any (fun a => strContains a "Latency")) = true <;>
        by_cases hd : (cls.any
          (fun c => strContains c.pattern.toLower "database" && c.level == "ERROR")) = true <;>
        simp [hl, hd]
    have hlen : (findCorrelations ans cls).length ≤ 1 := by
      rcases hcond with h | h <;> simp [h]
    refine ⟨?_, hcond, hlen⟩
    unfold findCorrelations
    by_cases hl : (ans.any (fun a => strContains a "Latency")) = true <;>
      by_cases hd : (cls.any
        (fun c => strContains c.pattern.toLower "database" && c.level == "ERROR")) = true <;>
      simp_all [List.any_eq_true, Bool.and_eq_true, beq_iff_eq]
  · intro s
    rfl

/-! ## Claim C4: no exception escapes; malformed input falls through -/

/-- C4: the analysis is a total function of the input string.  A JSON
failure together with a CSV failure leaves the input unchanged (raw
passthrough); a JSON failure with a CSV success normalizes to the CSV
lines; and a report is produced for every input (totality is by
construction of the embedding — every Python exception site is modelled by
an `Option` that the normalizer handles locally). -/
theorem C4_no_exception_fallthrough (s : String) :
    (jsonLoads s = none → csvTry s = none → normalizeInput s = s) ∧
    (∀ t, jsonLoads s = none → csvTry s = some t → normalizeInput s = t) ∧
    ∃ r : Report, analyze s = r := by
  refine ⟨fun hj hc => ?_, fun t hj hc => ?_, ⟨analyze s, rfl⟩⟩
  · simp only [normalizeInput, hj, hc]
  · simp only [normalizeInput, hj, hc]

/-- C4 (witness): malformed JSON that is no CSV either passes through
unchanged and still yields a healthy report (scenario D of the spec). -/
theorem C4_witness :
    jsonLoads "\x7bbad" = none ∧ csvTry "\x7bbad" = none ∧
      normalizeInput "\x7bbad" = "\x7bbad" ∧
      (analyze "\x7bbad").parsed_entries = 0 ∧
      (analyze "\x7bbad").health_score = 100 := by
  have hj : jsonLoads "\x7bbad" = none := Option.isNone_iff_eq_none.mp (by decide)
  have hc : csvTry "\x7bbad" = none := Option.isNone_iff_eq_none.mp (by decide)
  exact ⟨hj, hc, (C4_no_exception_fallthrough "\x7bbad").1 hj hc, by decide, by decide⟩

/-! ## Claim C6: empty or all-whitespace input -/

/-- The head of a `dropWhile` result does not satisfy the predicate. -/
theorem dropWhile_head_false {p : Char → Bool} :
    ∀ (l : List Char) (c : Char) (rest : List Char),
      l.dropWhile p = c :: rest → p c = false := by
  intro l
  induction l with
  | nil => intro c rest h; simp [List.dropWhile] at h
  | cons a as ih =>
    intro c rest h
    by_cases hp : p a
    · rw [List.dropWhile_cons_of_pos hp] at h
      exact ih c rest h
    · rw [List.dropWhile_cons_of_neg hp] at h
      cases h
      exact Bool.not_eq_true _ ▸ (by simpa using hp)

/-- `dropWhile` consumes a list all of whose elements satisfy the
predicate. -/
theorem dropWhile_nil_of_all {p : Char → Bool} :
    ∀ (l : List Char), (∀ c ∈ l, p c = true) → l.dropWhile p = [] := by
  intro l
  induction l with
  | nil => intro _; rfl
  | cons a as ih =>
    intro h
    rw [List.dropWhile_cons_of_pos (h a (List.mem_cons_self a as))]
    exact ih (fun c hc => h c (List.mem_cons_of_mem a hc))

/-- `List.contains` really is membership (for chars). -/
theorem mem_of_contains_char {l : List Char} {a : Char} (h : l.contains a = true) :
    a ∈ l := by
  simpa using h

/-- A value-mode parse of all-whitespace input fails for every fuel. -/
theorem parseJ_value_ws (fuel : Nat) (l : List Char)
    (h : ∀ c ∈ l, isSpaceChar c = true) : parseJ fuel .value l = none := by
  cases fuel with
  | zero => rfl
  | succ n =>
    cases hd : skipWsJ l with
    | nil => simp [parseJ, hd]
    | cons c rest =>
      have hcl : c ∈ l := by
        have hmem : c ∈ skipWsJ l := by rw [hd]; exact List.mem_cons_self c rest
        exact (List.dropWhile_sublist isJsonWs).subset hmem
      have hcs : isSpaceChar c = true := h c hcl
      have hcw : isJsonWs c = false := dropWhile_head_false l c rest hd
      have hcc : c = '\x0b' ∨ c = '\x0c' := by
        simp only [isSpaceChar, Bool.or_eq_true, decide_eq_true_eq] at hcs
        simp only [isJsonWs, Bool.or_eq_false_iff, decide_eq_false_iff_not] at hcw
        tauto
      rcases hcc with rfl | rfl <;> simp [parseJ, hd, isDigitChar]

/-- `json.loads` fails on all-whitespace input. -/
theorem jsonLoads_ws (s : String) (h : ∀ c ∈ s.toList, isSpaceChar c = true) :
    jsonLoads s = none := by
  unfold jsonLoads
  rw [parseJ_value_ws _ _ h]

/-- The CSV strategy is not applicable without a comma. -/
theorem csvTry_no_comma (s : String) (h : s.toList.contains ',' = false) :
    csvTry s = none := by
  unfold csvTry
  simp only [h, Bool.false_and]
  rfl

/-- All-whitespace input contains no comma. -/
theorem no_comma_of_ws (s : String) (h : ∀ c ∈ s.toList, isSpaceChar c = true) :
    s.toList.contains ',' = false := by
  cases hb : s.toList.contains ',' with
  | false => rfl
  | true =>
    have := h ',' (mem_of_contains_char hb)
    simp [isSpaceChar] at this

/-- Stripping all-whitespace input gives the empty string. -/
theorem pyStrip_ws (s : String) (h : ∀ c ∈ s.toList, isSpaceChar c = true) :
    pyStrip s = "" := by
  unfold pyStrip
  rw [dropWhile_nil_of_all _ h]
  rfl

/-- All-whitespace input yields no log lines. -/
theorem logLines_ws (s : String) (h : ∀ c ∈ s.toList, isSpaceChar c = true) :
    logLines s = [] := by
  have hn : normalizeInput s = s := by
    simp only [normalizeInput, jsonLoads_ws s h,
      csvTry_no_comma s (no_comma_of_ws s h)]
  unfold logLines
  rw [hn, pyStrip_ws s h]
  decide

/-- C6: an empty or all-whitespace input yields the empty report — zero
entries, no level counts, no components, empty cluster list, zero-valued
metric summary, no anomalies, no correlations, and a health score of
exactly 100 — without being treated as an error. -/
theorem C6_empty_input (s : String) (h : ∀ c ∈ s.toList, isSpaceChar c = true) :
    (analyze s).parsed_entries = 0 ∧
    clusterLogs (parsedEntries s) = [] ∧
    (analyze s).log_levels = [] ∧
    (analyze s).components = [] ∧
    (analyze s).metrics_summary =
      { avg_cpu := 0, max_cpu := 0, avg_memory := 0, max_latency := 0,
        metric_points := 0, cpu_series := [], memory_series := [], latency_series := [] } ∧
    (analyze s).anomalies = [] ∧
    (analyze s).correlations = [] ∧
    (analyze s).health_score = 100 := by
  have hp : parsedEntries s = [] := by
    unfold parsedEntries
    rw [logLines_ws s h]
    rfl
  unfold analyze
  rw [hp]
  refine ⟨by decide, by decide, by decide, by decide, by decide, by decide, by decide, by decide⟩

/-! ## Clustering lemmas shared by C1 and C3 -/

/-- Inserting into a sorted list is a permutation of consing. -/
theorem insDesc_perm (c : Cluster) : ∀ (l : List Cluster), (insDesc c l).Perm (c :: l) := by
  intro l
  induction l with
  | nil => exact List.Perm.refl _
  | cons d rest ih =>
    unfold insDesc
    by_cases h : d.count ≤ c.count
    · rw [if_pos h]
    · rw [if_neg h]
      exact (ih.cons d).trans (List.Perm.swap c d rest)

/-- The stable sort is a permutation of its input. -/
theorem sortDesc_perm : ∀ (l : List Cluster), (sortDesc l).Perm l := by
  intro l
  induction l with
  | nil => exact List.Perm.refl _
  | cons c rest ih => exact (insDesc_perm c (sortDesc rest)).trans (ih.cons c)

/-- Sum of counts over the association list. -/
def sumPairs (l : List (String × Cluster)) : Nat := (l.map (fun p => p.2.count)).sum

/-- Updating an existing signature raises the total count by one. -/
theorem sumPairs_updFirst :
    ∀ (l : List (String × Cluster)) (sig : String) (e : LogEntry),
      l.any (fun p => p.1 == sig) = true →
      sumPairs (updFirst l sig e) = sumPairs l + 1 := by
  intro l
  induction l with
  | nil => intro sig e h; simp at h
  | cons q rest ih =>
    intro sig e h
    rcases q with ⟨k, c⟩
    unfold updFirst
    by_cases hk : (k == sig) = true
    · rw [if_pos hk]
      simp only [sumPairs, List.map_cons, List.sum_cons, bumpCluster]
      omega
    · rw [if_neg hk]
      have hrest : rest.any (fun p => p.1 == sig) = true := by
        rcases List.any_eq_true.mp h with ⟨p, hp, hps⟩
        rcases List.mem_cons.mp hp with rfl | hmem
        · exact absurd hps hk
        · exact List.any_eq_true.mpr ⟨p, hmem, hps⟩
      have hih := ih sig e hrest
      simp only [sumPairs, List.map_cons, List.sum_cons] at hih ⊢
      omega

/-- Each folded entry raises the total count by exactly one. -/
theorem sumPairs_foldStep (acc : List (String × Cluster)) (e : LogEntry) :
    sumPairs (foldStep acc e) = sumPairs acc + 1 := by
  unfold foldStep
  by_cases h : acc.any (fun p => p.1 == sigOf e) = true
  · rw [if_pos h]
    exact sumPairs_updFirst acc (sigOf e) e h
  · rw [if_neg h]
    simp [sumPairs, newCluster]

/-- The total cluster count equals the number of folded entries. -/
theorem sumPairs_clusterFold :
    ∀ (es : List LogEntry) (acc : List (String × Cluster)),
      sumPairs (es.foldl foldStep acc) = sumPairs acc + es.length := by
  intro es
  induction es with
  | nil => intro acc; simp
  | cons e rest ih =>
    intro acc
    rw [List.foldl_cons, ih, sumPairs_foldStep]
    simp
    omega

/-- `updFirst` only bumps counts/timestamps: keys, `example'` fields and
cluster keys are untouched. -/
theorem updFirst_shape :
    ∀ (l : List (String × Cluster)) (sig : String) (e : LogEntry)
      (p : String × Cluster), p ∈ updFirst l sig e →
      ∃ q ∈ l, p.1 = q.1 ∧ p.2.example' = q.2.example' ∧ clusterKey p.2 = clusterKey q.2 := by
  intro l
  induction l with
  | nil => intro sig e p h; simp [updFirst] at h
  | cons q rest ih =>
    intro sig e p h
    rcases q with ⟨k, c⟩
    unfold updFirst at h
    by_cases hk : (k == sig) = true
    · rw [if_pos hk] at h
      rcases List.mem_cons.mp h with rfl | hmem
      · exact ⟨(k, c), List.mem_cons_self _ _, rfl, rfl, rfl⟩
      · exact ⟨p, List.mem_cons_of_mem _ hmem, rfl, rfl, rfl⟩
    · rw [if_neg hk] at h
      rcases List.mem_cons.mp h with rfl | hmem
      · exact ⟨(k, c), List.mem_cons_self _ _, rfl, rfl, rfl⟩
      · rcases ih sig e p hmem with ⟨q', hq', h1, h2, h3⟩
        exact ⟨q', List.mem_cons_of_mem _ hq', h1, h2, h3⟩

/-- `updFirst` preserves key membership tests. -/
theorem any_updFirst :
    ∀ (l : List (String × Cluster)) (sig : String) (e : LogEntry) (k : String),
      (updFirst l sig e).any (fun p => p.1 == k) = l.any (fun p => p.1 == k) := by
  intro l
  induction l with
  | nil => intro sig e k; rfl
  | cons q rest ih =>
    intro sig e k
    rcases q with ⟨k', c⟩
    unfold updFirst
    by_cases hk : (k' == sig) = true
    · rw [if_pos hk]
      simp [List.any_cons]
    · rw [if_neg hk]
      simp [List.any_cons, ih]

/-- The invariant tying the accumulator of the clustering fold to the
entries already processed: every stored pair is keyed by its cluster key and
carries the message of the *first* processed entry of that signature, and
every processed entry has its signature in the accumulator. -/
def InvC3 (processed : List LogEntry) (acc : List (String × Cluster)) : Prop :=
  (∀ p ∈ acc, p.1 = clusterKey p.2 ∧
    ∃ e, processed.find? (fun e' => sigOf e' == p.1) = some e ∧ p.2.example' = e.message) ∧
  ∀ e ∈ processed, acc.any (fun p => p.1 == sigOf e) = true

/-- One fold step preserves the invariant. -/
theorem invC3_step (processed : List LogEntry) (acc : List (String × Cluster))
    (e : LogEntry) (h : InvC3 processed acc) :
    InvC3 (processed ++ [e]) (foldStep acc e) := by
  obtain ⟨h1, h2⟩ := h
  unfold foldStep
  by_cases hk : acc.any (fun p => p.1 == sigOf e) = true
  · rw [if_pos hk]
    constructor
    · intro p hp
      rcases updFirst_shape acc (sigOf e) e p hp with ⟨q, hq, hkey, hex, hck⟩
      rcases h1 q hq with ⟨hq1, e₀, hfind, hmsg⟩
      refine ⟨by rw [hkey, hck, hq1], e₀, ?_, by rw [hex, hmsg]⟩
      rw [List.find?_append, hkey, hfind]
      rfl
    · intro e' he'
      rcases List.mem_append.mp he' with hmem | hmem
      · rw [any_updFirst]
        exact h2 e' hmem
      · rcases List.mem_singleton.mp hmem with rfl
        rw [any_updFirst]
        exact hk
  · rw [if_neg hk]
    have hnone : processed.find? (fun e' => sigOf e' == sigOf e) = none := by
      refine List.find?_eq_none.mpr ?_
      intro x hx hbe
      have hsig : sigOf x = sigOf e := by simpa using hbe
      have := h2 x hx
      rw [hsig] at this
      exact absurd this hk
    constructor
    · intro p hp
      rcases List.mem_append.mp hp with hmem | hmem
      · rcases h1 p hmem with ⟨hq1, e₀, hfind, hmsg⟩
        refine ⟨hq1, e₀, ?_, hmsg⟩
        rw [List.find?_append, hfind]
        rfl
      · rcases List.mem_singleton.mp hmem with rfl
        refine ⟨rfl, e, ?_, rfl⟩
        rw [List.find?_append, hnone]
        simp [newCluster]
    · intro e' he'
      rcases List.mem_append.mp he' with hmem | hmem
      · have := h2 e' hmem
        simp only [List.any_append, this, Bool.true_or]
      · rcases List.mem_singleton.mp hmem with rfl
        simp [List.any_append]

/-- The invariant holds for the whole fold. -/
theorem invC3_fold :
    ∀ (es processed : List LogEntry) (acc : List (String × Cluster)),
      InvC3 processed acc → InvC3 (processed ++ es) (es.foldl foldStep acc) := by
  intro es
  induction es with
  | nil => intro processed acc h; simpa using h
  | cons e rest ih =>
    intro processed acc h
    rw [List.foldl_cons]
    have := ih (processed ++ [e]) (foldStep acc e) (invC3_step processed acc e h)
    simpa [List.append_assoc] using this

/-! ## Claim C3: the `example` field of a cluster -/

/-- C3 (counterexample): on the input `"[t] [E] m9"` the single cluster's
`example` field is the parsed message `"m9"`, not the raw line
`"[t] [E] m9"` of the first (and only) entry. -/
theorem C3_counterexample :
    ((clusterLogs (parsedEntries "[t] [E] m9")).map (·.example')) = ["m9"] ∧
    ((parsedEntries "[t] [E] m9").map (·.raw)) = ["[t] [E] m9"] ∧
    ("m9" : String) ≠ "[t] [E] m9" := by
  refine ⟨by decide, by decide, by decide⟩

/-- C3 (amended): for every cluster produced in a run, `example` equals the
parsed *message part* (not the raw line) of the first entry folded into that
cluster, and it is never overwritten by later entries of the same
signature. -/
theorem C3_example_first_message (entries : List LogEntry) (c : Cluster)
    (hc : c ∈ clusterLogs entries) :
    ∃ e, entries.find? (fun e' => sigOf e' == clusterKey c) = some e ∧
      c.example' = e.message := by
  have hmem : c ∈ (clusterFold entries).map (·.2) := by
    have h1 : c ∈ sortDesc ((clusterFold entries).map (·.2)) :=
      List.take_subset 20 _ hc
    exact (sortDesc_perm _).mem_iff.mp h1
  rcases List.mem_map.mp hmem with ⟨p, hp, rfl⟩
  have hinv : InvC3 entries (clusterFold entries) := by
    have := invC3_fold entries [] [] ⟨by intro p hp; simp at hp, by intro e he; simp at he⟩
    simpa using this
  rcases hinv.1 p hp with ⟨hkey, e, hfind, hmsg⟩
  exact ⟨e, by rw [← hkey]; exact hfind, hmsg⟩

/-- C3 (witness): two entries share one signature; the cluster's example is
the first one's message. -/
theorem C3_witness :
    ∃ e, (parsedEntries "[t] [E] m 9\n[u] [E] m 8").find?
        (fun e' => sigOf e' ==
          clusterKey ⟨"m \x7bNUM\x7d", "E", 2, "m 9", ["t", "u"]⟩) = some e ∧
      (Cluster.mk "m \x7bNUM\x7d" "E" 2 "m 9" ["t", "u"]).example' = e.message := by
  exact C3_example_first_message (parsedEntries "[t] [E] m 9\n[u] [E] m 8")
    ⟨"m \x7bNUM\x7d", "E", 2, "m 9", ["t", "u"]⟩ (by decide)

/-! ## Claim C1: cluster counts versus `parsed_entries` -/

/-- The input for the C1 counterexample: 21 parseable lines with 21 distinct
levels, hence 21 distinct signatures. -/
def ex21 : String :=
  "[] [A] m\n[] [B] m\n[] [C] m\n[] [D] m\n[] [E] m\n[] [F] m\n[] [G] m\n" ++
  "[] [H] m\n[] [I] m\n[] [J] m\n[] [K] m\n[] [L] m\n[] [M] m\n[] [N] m\n" ++
  "[] [O] m\n[] [P] m\n[] [Q] m\n[] [R] m\n[] [S] m\n[] [T] m\n[] [U] m"

/-- C1 (counterexample): with 21 distinct signatures all of whose lines
match the parser's expected shape, the returned clusters are truncated to
the top 20, so their counts sum to 20 while `parsed_entries` is 21. -/
theorem C1_counterexample :
    (logLines ex21).all (fun l => (parseLine l).isSome) = true ∧
    (analyze ex21).parsed_entries = 21 ∧
    sumCounts (clusterLogs (parsedEntries ex21)) = 20 ∧
    sumCounts (clusterLogs (parsedEntries ex21)) ≠ (analyze ex21).parsed_entries := by
  refine ⟨by decide, by decide, by decide, by decide⟩

/-- C1 (amended): when every normalized non-blank line matches the parser's
shape *and at most 20 distinct signatures arise*, the counts of the
returned clusters sum exactly to `parsed_entries`: no parsed entry is
double-counted or lost.  (With more than 20 signatures the top-20
truncation loses entries — see the counterexample.) -/
theorem C1_cluster_counts_sum (s : String)
    (hparse : (logLines s).all (fun l => (parseLine l).isSome) = true)
    (hfew : (clusterFold (parsedEntries s)).length ≤ 20) :
    sumCounts (clusterLogs (parsedEntries s)) = (analyze s).parsed_entries := by
  show _ = (parsedEntries s).length
  unfold clusterLogs
  have hperm : (sortDesc ((clusterFold (parsedEntries s)).map (·.2))).Perm
      ((clusterFold (parsedEntries s)).map (·.2)) := sortDesc_perm _
  have hlen : (sortDesc ((clusterFold (parsedEntries s)).map (·.2))).length ≤ 20 := by
    rw [hperm.length_eq, List.length_map]
    exact hfew
  rw [List.take_of_length_le hlen]
  have hsum : sumCounts (sortDesc ((clusterFold (parsedEntries s)).map (·.2))) =
      sumCounts ((clusterFold (parsedEntries s)).map (·.2)) := by
    unfold sumCounts
    exact (hperm.map (·.count)).sum_eq
  rw [hsum]
  have : sumCounts ((clusterFold (parsedEntries s)).map (·.2)) =
      sumPairs (clusterFold (parsedEntries s)) := by
    unfold sumCounts sumPairs
    rw [List.map_map]
    rfl
  rw [this]
  have := sumPairs_clusterFold (parsedEntries s) []
  unfold clusterFold
  simpa [sumPairs] using this

/-- C1 (witness): two lines, one signature: counts sum to
`parsed_entries = 2`. -/
theorem C1_witness :
    sumCounts (clusterLogs (parsedEntries "[] [A] m\n[] [A] m")) =
      (analyze "[] [A] m\n[] [A] m").parsed_entries :=
  C1_cluster_counts_sum "[] [A] m\n[] [A] m" (by decide) (by decide)

/-- C6 (witness): the concrete all-whitespace input `" \n\t "`. -/
theorem C6_witness :
    (analyze " \n\t ").parsed_entries = 0 ∧
    clusterLogs (parsedEntries " \n\t ") = [] ∧
    (analyze " \n\t ").log_levels = [] ∧
    (analyze " \n\t ").components = [] ∧
    (analyze " \n\t ").metrics_summary =
      { avg_cpu := 0, max_cpu := 0, avg_memory := 0, max_latency := 0,
        metric_points := 0, cpu_series := [], memory_series := [], latency_series := [] } ∧
    (analyze " \n\t ").anomalies = [] ∧
    (analyze " \n\t ").correlations = [] ∧
    (analyze " \n\t ").health_score = 100 :=
  C6_empty_input " \n\t " (by decide)

/-! ## Claim C9: masking is idempotent — matcher infrastructure

Each `re.sub` scanner is related to a positional "is there a match"
scanner: `scanHas M pc l` tries the anchored matcher `M` at every position
of `l`, threading the wordness of the previous character for `\b`. -/

/-- The trailing `\b` of the digit patterns: satisfied at the end of the
string or before a non-word character. -/
def bAfter : List Char → Bool
  | [] => true
  | w :: _ => !isWordChar w

/-- Anchored matcher of rule 3, `\b\d+\b`. -/
def match3 (pc : Bool) (l : List Char) : Bool :=
  match l with
  | [] => false
  | c :: _ => isDigitChar c && !pc && bAfter (l.dropWhile isDigitChar)

/-- One `\.\d+` group of the IP pattern: a dot followed by a nonempty digit
run; returns the rest after the run. -/
def dotRun : List Char → Option (List Char)
  | '.' :: r =>
    if (r.takeWhile isDigitChar).isEmpty then none else some (r.dropWhile isDigitChar)
  | _ => none

/-- `k` further `\.\d+` groups and then the trailing `\b`. -/
def chainB : Nat → List Char → Bool
  | 0, r => bAfter r
  | k + 1, r =>
    match dotRun r with
    | none => false
    | some r' => chainB k r'

/-- Anchored matcher of rule 1, `\b\d+\.\d+\.\d+\.\d+\b`. -/
def match1 (pc : Bool) (l : List Char) : Bool :=
  match l with
  | [] => false
  | c :: _ => isDigitChar c && !pc && chainB 3 (l.dropWhile isDigitChar)

/-- Positional scanner: does the anchored matcher `M` succeed at some
position of `l` (given the wordness `pc` of the previous character)? -/
def scanHas (M : Bool → List Char → Bool) : Bool → List Char → Bool
  | _, [] => false
  | pc, c :: rest => M pc (c :: rest) || scanHas M (isWordChar c) rest

/-- The `\b` context after scanning past `xs`. -/
def ctxAfter (pc : Bool) : List Char → Bool
  | [] => pc
  | c :: xs => ctxAfter (isWordChar c) xs

theorem ctxAfter_cons (pc : Bool) (c : Char) (xs : List Char) :
    ctxAfter pc (c :: xs) = ctxAfter (isWordChar c) xs := rfl

/-- A match-free string stays match-free on suffixes (with the right
context). -/
theorem scanHas_append (M : Bool → List Char → Bool) :
    ∀ (xs : List Char) (pc : Bool) (T : List Char),
      scanHas M pc (xs ++ T) = false → scanHas M (ctxAfter pc xs) T = false := by
  intro xs
  induction xs with
  | nil => intro pc T h; simpa using h
  | cons c xs' ih =>
    intro pc T h
    rw [ctxAfter_cons]
    have h' : scanHas M (isWordChar c) (xs' ++ T) = false := by
      have := scanHas M pc (c :: (xs' ++ T))
      unfold scanHas at h
      exact (Bool.or_eq_false_iff.mp h).2
    exact ih (isWordChar c) T h'

/-- The components of a `scanHas` failure at a cons cell. -/
theorem scanHas_cons_false {M : Bool → List Char → Bool} {pc : Bool} {c : Char}
    {rest : List Char} (h : scanHas M pc (c :: rest) = false) :
    M pc (c :: rest) = false ∧ scanHas M (isWordChar c) rest = false := by
  unfold scanHas at h
  exact Bool.or_eq_false_iff.mp h

/-- `dotRun` fails unless the head is a dot. -/
theorem dotRun_ne_dot {w : Char} (hw : ¬w = '.') (ws : List Char) :
    dotRun (w :: ws) = none := by
  unfold dotRun
  split
  · rename_i r heq
    injection heq with h1 _
    exact absurd h1 hw
  · rfl

/-- An IP match is in particular a NUM match at the same position (the
first digit run is followed by a dot, which is a non-word character, so the
`\b` after the run holds). -/
theorem match1_imp_match3 (pc : Bool) (l : List Char) (h : match1 pc l = true) :
    match3 pc l = true := by
  cases l with
  | nil => simp [match1] at h
  | cons c rest =>
    unfold match1 at h
    unfold match3
    simp only [Bool.and_eq_true] at h
    obtain ⟨⟨hd, hpc⟩, h3⟩ := h
    simp only [Bool.and_eq_true]
    refine ⟨⟨hd, hpc⟩, ?_⟩
    unfold chainB at h3
    cases hdr : dotRun ((c :: rest).dropWhile isDigitChar) with
    | none => rw [hdr] at h3; exact absurd h3 (by decide)
    | some r' =>
      unfold dotRun at hdr
      cases hdw : (c :: rest).dropWhile isDigitChar with
      | nil => rw [hdw] at hdr; exact absurd hdr (by simp)
      | cons w ws =>
        rw [hdw] at hdr
        by_cases hw : w = '.'
        · subst hw
          simp [bAfter, isWordChar]
        · rw [show (match w :: ws with
              | '.' :: r =>
                if (List.takeWhile isDigitChar r).isEmpty = true then none
                else some (List.dropWhile isDigitChar r)
              | _ => none) = dotRun (w :: ws) from rfl, dotRun_ne_dot hw ws] at hdr
          exact absurd hdr (by simp)

/-- `scanHas` is monotone in the matcher (contrapositive form). -/
theorem scanHas_mono_false {M M' : Bool → List Char → Bool}
    (himp : ∀ pc l, M pc l = true → M' pc l = true) :
    ∀ (l : List Char) (pc : Bool), scanHas M' pc l = false → scanHas M pc l = false := by
  intro l
  induction l with
  | nil => intro pc _; rfl
  | cons c rest ih =>
    intro pc h
    rcases scanHas_cons_false h with ⟨h1, h2⟩
    unfold scanHas
    refine Bool.or_eq_false_iff.mpr ⟨?_, ih (isWordChar c) h2⟩
    cases hm : M pc (c :: rest) with
    | false => rfl
    | true => rw [himp pc (c :: rest) hm] at h1; exact h1

/-- Digits are word characters. -/
theorem isWordChar_of_isDigitChar {c : Char} (h : isDigitChar c = true) :
    isWordChar c = true := by
  simp only [isDigitChar, Bool.and_eq_true, decide_eq_true_eq] at h
  simp only [isWordChar, Bool.or_eq_true, Bool.and_eq_true, decide_eq_true_eq]
  tauto

/-! ### A match-free string is a fixpoint of each substitution -/

/-- No rule-2 window anywhere means `sub2` changes nothing. -/
theorem sub2_id_of_no2 :
    ∀ (l : List Char) (pc : Bool),
      scanHas uuidMatchAt pc l = false → sub2go (.scan pc) l = l := by
  intro l
  induction l with
  | nil => intro pc _; rfl
  | cons c rest ih =>
    intro pc h
    rcases scanHas_cons_false h with ⟨h1, h2⟩
    unfold sub2go
    rw [if_neg (by rw [h1]; exact Bool.false_ne_true)]
    rw [ih (isWordChar c) h2]

/-- The invariant carried through `sub3go`'s states when the input has no
rule-3 match: for the run state, the pending run fails its trailing `\b`
and the rest of the string is still match-free. -/
def inv3 : NumSt → List Char → Prop
  | .scan pc, l => scanHas match3 pc l = false
  | .run _, l =>
    bAfter (l.dropWhile isDigitChar) = false ∧ scanHas match3 true l = false

/-- What `sub3go` must emit to be the identity. -/
def emit3 : NumSt → List Char → List Char
  | .scan _, l => l
  | .run acc, l => acc.reverse ++ l

/-- No rule-3 match anywhere means `sub3` changes nothing. -/
theorem sub3_id_of_no3 :
    ∀ (l : List Char) (st : NumSt), inv3 st l → sub3go st l = emit3 st l := by
  intro l
  induction l with
  | nil =>
    intro st h
    cases st with
    | scan pc => rfl
    | run acc => exact absurd h.1 (by decide)
  | cons c rest ih =>
    intro st h
    cases st with
    | scan pc =>
      rcases scanHas_cons_false h with ⟨hm, hrest⟩
      by_cases hentry : (isDigitChar c && !pc) = true
      · simp only [Bool.and_eq_true] at hentry
        obtain ⟨hd, hpc⟩ := hentry
        have hba : bAfter (rest.dropWhile isDigitChar) = false := by
          have hm' : (isDigitChar c && !pc &&
              bAfter ((c :: rest).dropWhile isDigitChar)) = false := hm
          rw [hd, hpc, List.dropWhile_cons_of_pos hd] at hm'
          simpa using hm'
        have hww : isWordChar c = true := isWordChar_of_isDigitChar hd
        have hrest' : scanHas match3 true rest = false := by rw [← hww]; exact hrest
        have hrun := ih (.run [c]) ⟨hba, hrest'⟩
        show sub3go (.scan pc) (c :: rest) = c :: rest
        unfold sub3go
        rw [if_pos (by rw [hd, hpc]; rfl), hrun]
        rfl
      · show sub3go (.scan pc) (c :: rest) = c :: rest
        unfold sub3go
        rw [if_neg hentry]
        rw [ih (.scan (isWordChar c)) hrest]
        rfl
    | run acc =>
      obtain ⟨hba, hscan⟩ := h
      rcases scanHas_cons_false hscan with ⟨_, hrest⟩
      by_cases hd : isDigitChar c = true
      · have hww : isWordChar c = true := isWordChar_of_isDigitChar hd
        have hba' : bAfter (rest.dropWhile isDigitChar) = false := by
          rw [List.dropWhile_cons_of_pos hd] at hba
          exact hba
        have hrest' : scanHas match3 true rest = false := by rw [← hww]; exact hrest
        have hrun := ih (.run (c :: acc)) ⟨hba', hrest'⟩
        show sub3go (.run acc) (c :: rest) = acc.reverse ++ c :: rest
        unfold sub3go
        rw [if_pos hd, hrun]
        simp [emit3]
      · have hw : isWordChar c = true := by
          rw [List.dropWhile_cons_of_neg hd] at hba
          unfold bAfter at hba
          simpa using hba
        have hrest' : scanHas match3 true rest = false := by rw [← hw]; exact hrest
        show sub3go (.run acc) (c :: rest) = acc.reverse ++ c :: rest
        unfold sub3go
        rw [if_neg hd, if_pos hw]
        rw [ih (.scan true) hrest']
        rfl

/-- The invariant carried through `sub1go`'s states when the input has no
rule-1 match: each attempt state remembers that the remaining chain of the
IP pattern fails, and that the rest of the string is match-free. -/
def inv1 : IpSt → List Char → Prop
  | .scan pc, l => scanHas match1 pc l = false
  | .r1 _, l => chainB 3 (l.dropWhile isDigitChar) = false ∧ scanHas match1 true l = false
  | .p1 _, l => chainB 3 ('.' :: l) = false ∧ scanHas match1 false l = false
  | .r2 _, l => chainB 2 (l.dropWhile isDigitChar) = false ∧ scanHas match1 true l = false
  | .p2 _, l => chainB 2 ('.' :: l) = false ∧ scanHas match1 false l = false
  | .r3 _, l => chainB 1 (l.dropWhile isDigitChar) = false ∧ scanHas match1 true l = false
  | .p3 _, l => chainB 1 ('.' :: l) = false ∧ scanHas match1 false l = false
  | .r4 _, l => chainB 0 (l.dropWhile isDigitChar) = false ∧ scanHas match1 true l = false

/-- What `sub1go` must emit to be the identity. -/
def emit1 : IpSt → List Char → List Char
  | .scan _, l => l
  | .r1 acc, l => acc.reverse ++ l
  | .p1 acc, l => acc.reverse ++ l
  | .r2 acc, l => acc.reverse ++ l
  | .p2 acc, l => acc.reverse ++ l
  | .r3 acc, l => acc.reverse ++ l
  | .p3 acc, l => acc.reverse ++ l
  | .r4 acc, l => acc.reverse ++ l

/-- Peeling one further `\.\d+` group off a failing chain. -/
theorem chainB_dot_digit {k : Nat} {c : Char} {rest : List Char}
    (hd : isDigitChar c = true) (h : chainB (k + 1) ('.' :: c :: rest) = false) :
    chainB k (rest.dropWhile isDigitChar) = false := by
  have hdr : dotRun ('.' :: c :: rest) = some (rest.dropWhile isDigitChar) := by
    show (if ((c :: rest).takeWhile isDigitChar).isEmpty = true then none
      else some ((c :: rest).dropWhile isDigitChar)) = _
    rw [List.takeWhile_cons_of_pos hd, List.dropWhile_cons_of_pos hd]
    rfl
  have h' : (match dotRun ('.' :: c :: rest) with
      | none => false
      | some r' => chainB k r') = false := h
  rw [hdr] at h'
  exact h'

/-- No rule-1 match anywhere means `sub1` changes nothing. -/
theorem sub1_id_of_no1 :
    ∀ (l : List Char) (st : IpSt), inv1 st l → sub1go st l = emit1 st l := by
  intro l
  induction l with
  | nil =>
    intro st h
    cases st with
    | scan pc => rfl
    | r1 acc => simp [sub1go, emit1]
    | p1 acc => simp [sub1go, emit1]
    | r2 acc => simp [sub1go, emit1]
    | p2 acc => simp [sub1go, emit1]
    | r3 acc => simp [sub1go, emit1]
    | p3 acc => simp [sub1go, emit1]
    | r4 acc => exact absurd h.1 (by decide)
  | cons c rest ih =>
    intro st h
    cases st with
    | scan pc =>
      rcases scanHas_cons_false h with ⟨hm, hrest⟩
      by_cases hentry : (isDigitChar c && !pc) = true
      · simp only [Bool.and_eq_true] at hentry
        obtain ⟨hd, hpc⟩ := hentry
        have hch : chainB 3 (rest.dropWhile isDigitChar) = false := by
          have hm' : (isDigitChar c && !pc &&
              chainB 3 ((c :: rest).dropWhile isDigitChar)) = false := hm
          rw [hd, hpc, List.dropWhile_cons_of_pos hd] at hm'
          simpa using hm'
        have hww : isWordChar c = true := isWordChar_of_isDigitChar hd
        have hrest' : scanHas match1 true rest = false := by rw [← hww]; exact hrest
        have hrun := ih (.r1 [c]) ⟨hch, hrest'⟩
        show sub1go (.scan pc) (c :: rest) = c :: rest
        unfold sub1go
        rw [if_pos (by rw [hd, hpc]; rfl), hrun]
        rfl
      · show sub1go (.scan pc) (c :: rest) = c :: rest
        unfold sub1go
        rw [if_neg hentry, ih (.scan (isWordChar c)) hrest]
        rfl
    | r1 acc =>
      obtain ⟨hch, hscan⟩ := h
      rcases scanHas_cons_false hscan with ⟨_, hrest⟩
      by_cases hd : isDigitChar c = true
      · have hch' : chainB 3 (rest.dropWhile isDigitChar) = false := by
          rw [List.dropWhile_cons_of_pos hd] at hch; exact hch
        have hrest' : scanHas match1 true rest = false := by
          rw [← isWordChar_of_isDigitChar hd]; exact hrest
        have hrun := ih (.r1 (c :: acc)) ⟨hch', hrest'⟩
        show sub1go (.r1 acc) (c :: rest) = acc.reverse ++ c :: rest
        unfold sub1go
        rw [if_pos hd, hrun]
        simp [emit1]
      · rw [List.dropWhile_cons_of_neg hd] at hch
        by_cases hdot : c = '.'
        · subst hdot
          have hrest' : scanHas match1 false rest = false := by
            rw [show (false : Bool) = isWordChar '.' from by decide]; exact hrest
          have hrun := ih (.p1 ('.' :: acc)) ⟨hch, hrest'⟩
          show sub1go (.r1 acc) ('.' :: rest) = acc.reverse ++ '.' :: rest
          unfold sub1go
          rw [if_neg hd, if_pos rfl, hrun]
          simp [emit1]
        · show sub1go (.r1 acc) (c :: rest) = acc.reverse ++ c :: rest
          unfold sub1go
          rw [if_neg hd, if_neg hdot, ih (.scan (isWordChar c)) hrest]
          rfl
    | p1 acc =>
      obtain ⟨hch, hscan⟩ := h
      rcases scanHas_cons_false hscan with ⟨_, hrest⟩
      by_cases hd : isDigitChar c = true
      · have hch' : chainB 2 (rest.dropWhile isDigitChar) = false := chainB_dot_digit hd hch
        have hrest' : scanHas match1 true rest = false := by
          rw [← isWordChar_of_isDigitChar hd]; exact hrest
        have hrun := ih (.r2 (c :: acc)) ⟨hch', hrest'⟩
        show sub1go (.p1 acc) (c :: rest) = acc.reverse ++ c :: rest
        unfold sub1go
        rw [if_pos hd, hrun]
        simp [emit1]
      · show sub1go (.p1 acc) (c :: rest) = acc.reverse ++ c :: rest
        unfold sub1go
        rw [if_neg hd, ih (.scan (isWordChar c)) hrest]
        rfl
    | r2 acc =>
      obtain ⟨hch, hscan⟩ := h
      rcases scanHas_cons_false hscan with ⟨_, hrest⟩
      by_cases hd : isDigitChar c = true
      · have hch' : chainB 2 (rest.dropWhile isDigitChar) = false := by
          rw [List.dropWhile_cons_of_pos hd] at hch; exact hch
        have hrest' : scanHas match1 true rest = false := by
          rw [← isWordChar_of_isDigitChar hd]; exact hrest
        have hrun := ih (.r2 (c :: acc)) ⟨hch', hrest'⟩
        show sub1go (.r2 acc) (c :: rest) = acc.reverse ++ c :: rest
        unfold sub1go
        rw [if_pos hd, hrun]
        simp [emit1]
      · rw [List.dropWhile_cons_of_neg hd] at hch
        by_cases hdot : c = '.'
        · subst hdot
          have hrest' : scanHas match1 false rest = false := by
            rw [show (false : Bool) = isWordChar '.' from by decide]; exact hrest
          have hrun := ih (.p2 ('.' :: acc)) ⟨hch, hrest'⟩
          show sub1go (.r2 acc) ('.' :: rest) = acc.reverse ++ '.' :: rest
          unfold sub1go
          rw [if_neg hd, if_pos rfl, hrun]
          simp [emit1]
        · show sub1go (.r2 acc) (c :: rest) = acc.reverse ++ c :: rest
          unfold sub1go
          rw [if_neg hd, if_neg hdot, ih (.scan (isWordChar c)) hrest]
          rfl
    | p2 acc =>
      obtain ⟨hch, hscan⟩ := h
      rcases scanHas_cons_false hscan with ⟨_, hrest⟩
      by_cases hd : isDigitChar c = true
      · have hch' : chainB 1 (rest.dropWhile isDigitChar) = false := chainB_dot_digit hd hch
        have hrest' : scanHas match1 true rest = false := by
          rw [← isWordChar_of_isDigitChar hd]; exact hrest
        have hrun := ih (.r3 (c :: acc)) ⟨hch', hrest'⟩
        show sub1go (.p2 acc) (c :: rest) = acc.reverse ++ c :: rest
        unfold sub1go
        rw [if_pos hd, hrun]
        simp [emit1]
      · show sub1go (.p2 acc) (c :: rest) = acc.reverse ++ c :: rest
        unfold sub1go
        rw [if_neg hd, ih (.scan (isWordChar c)) hrest]
        rfl
    | r3 acc =>
      obtain ⟨hch, hscan⟩ := h
      rcases scanHas_cons_false hscan with ⟨_, hrest⟩
      by_cases hd : isDigitChar c = true
      · have hch' : chainB 1 (rest.dropWhile isDigitChar) = false := by
          rw [List.dropWhile_cons_of_pos hd] at hch; exact hch
        have hrest' : scanHas match1 true rest = false := by
          rw [← isWordChar_of_isDigitChar hd]; exact hrest
        have hrun := ih (.r3 (c :: acc)) ⟨hch', hrest'⟩
        show sub1go (.r3 acc) (c :: rest) = acc.reverse ++ c :: rest
        unfold sub1go
        rw [if_pos hd, hrun]
        simp [emit1]
      · rw [List.dropWhile_cons_of_neg hd] at hch
        by_cases hdot : c = '.'
        · subst hdot
          have hrest' : scanHas match1 false rest = false := by
            rw [show (false : Bool) = isWordChar '.' from by decide]; exact hrest
          have hrun := ih (.p3 ('.' :: acc)) ⟨hch, hrest'⟩
          show sub1go (.r3 acc) ('.' :: rest) = acc.reverse ++ '.' :: rest
          unfold sub1go
          rw [if_neg hd, if_pos rfl, hrun]
          simp [emit1]
        · show sub1go (.r3 acc) (c :: rest) = acc.reverse ++ c :: rest
          unfold sub1go
          rw [if_neg hd, if_neg hdot, ih (.scan (isWordChar c)) hrest]
          rfl
    | p3 acc =>
      obtain ⟨hch, hscan⟩ := h
      rcases scanHas_cons_false hscan with ⟨_, hrest⟩
      by_cases hd : isDigitChar c = true
      · have hch' : chainB 0 (rest.dropWhile isDigitChar) = false := chainB_dot_digit hd hch
        have hrest' : scanHas match1 true rest = false := by
          rw [← isWordChar_of_isDigitChar hd]; exact hrest
        have hrun := ih (.r4 (c :: acc)) ⟨hch', hrest'⟩
        show sub1go (.p3 acc) (c :: rest) = acc.reverse ++ c :: rest
        unfold sub1go
        rw [if_pos hd, hrun]
        simp [emit1]
      · show sub1go (.p3 acc) (c :: rest) = acc.reverse ++ c :: rest
        unfold sub1go
        rw [if_neg hd, ih (.scan (isWordChar c)) hrest]
        rfl
    | r4 acc =>
      obtain ⟨hch, hscan⟩ := h
      rcases scanHas_cons_false hscan with ⟨_, hrest⟩
      by_cases hd : isDigitChar c = true
      · have hch' : chainB 0 (rest.dropWhile isDigitChar) = false := by
          rw [List.dropWhile_cons_of_pos hd] at hch; exact hch
        have hrest' : scanHas match1 true rest = false := by
          rw [← isWordChar_of_isDigitChar hd]; exact hrest
        have hrun := ih (.r4 (c :: acc)) ⟨hch', hrest'⟩
        show sub1go (.r4 acc) (c :: rest) = acc.reverse ++ c :: rest
        unfold sub1go
        rw [if_pos hd, hrun]
        simp [emit1]
      · rw [List.dropWhile_cons_of_neg hd] at hch
        have hw : isWordChar c = true := by
          unfold chainB bAfter at hch
          simpa using hch
        have hrest' : scanHas match1 true rest = false := by rw [← hw]; exact hrest
        show sub1go (.r4 acc) (c :: rest) = acc.reverse ++ c :: rest
        unfold sub1go
        rw [if_neg hd, if_pos hw, ih (.scan true) hrest']
        rfl

/-! ### The output of `sub3` has no rule-3 (and hence no rule-1) match -/

/-- `dropWhile` ignores a prefix of satisfied elements. -/
theorem dropWhile_append_of_all {p : Char → Bool} :
    ∀ (ds : List Char), (∀ d ∈ ds, p d = true) → ∀ (y : List Char),
      (ds ++ y).dropWhile p = y.dropWhile p := by
  intro ds
  induction ds with
  | nil => intro _ y; rfl
  | cons d ds' ih =>
    intro h y
    rw [List.cons_append, List.dropWhile_cons_of_pos (h d (List.mem_cons_self d ds'))]
    exact ih (fun x hx => h x (List.mem_cons_of_mem d hx)) y

/-- Rule-3 matches cannot start on a non-digit prefix. -/
theorem scan3_skip :
    ∀ (xs : List Char), (∀ x ∈ xs, isDigitChar x = false) →
      ∀ (ctx : Bool) (T : List Char), scanHas match3 (ctxAfter ctx xs) T = false →
        scanHas match3 ctx (xs ++ T) = false := by
  intro xs
  induction xs with
  | nil => intro _ ctx T h; simpa using h
  | cons x xs' ih =>
    intro hall ctx T h
    rw [List.cons_append]
    unfold scanHas
    refine Bool.or_eq_false_iff.mpr ⟨?_, ?_⟩
    · have hx : isDigitChar x = false := hall x (List.mem_cons_self x xs')
      show (isDigitChar x && !ctx && bAfter ((x :: (xs' ++ T)).dropWhile isDigitChar)) = false
      rw [hx]
      rfl
    · exact ih (fun y hy => hall y (List.mem_cons_of_mem x hy)) (isWordChar x) T h

/-- A digit run followed by a word character yields no rule-3 match at or
inside the run. -/
theorem scan3_digits_word :
    ∀ (ds : List Char), (∀ d ∈ ds, isDigitChar d = true) →
      ∀ (c : Char), isDigitChar c = false → isWordChar c = true →
        ∀ (ctx : Bool) (T : List Char), scanHas match3 (isWordChar c) T = false →
          scanHas match3 ctx (ds ++ c :: T) = false := by
  intro ds
  induction ds with
  | nil =>
    intro _ c hcd hcw ctx T h
    rw [List.nil_append]
    unfold scanHas
    refine Bool.or_eq_false_iff.mpr ⟨?_, h⟩
    show (isDigitChar c && !ctx && bAfter ((c :: T).dropWhile isDigitChar)) = false
    rw [hcd]
    rfl
  | cons d ds' ih =>
    intro hall c hcd hcw ctx T h
    have hd : isDigitChar d = true := hall d (List.mem_cons_self d ds')
    have hall' : ∀ x ∈ ds', isDigitChar x = true :=
      fun x hx => hall x (List.mem_cons_of_mem d hx)
    rw [List.cons_append]
    unfold scanHas
    refine Bool.or_eq_false_iff.mpr ⟨?_, ih hall' c hcd hcw (isWordChar d) T h⟩
    show (isDigitChar d && !ctx && bAfter ((d :: (ds' ++ c :: T)).dropWhile isDigitChar)) = false
    rw [List.dropWhile_cons_of_pos hd, dropWhile_append_of_all ds' hall' (c :: T),
      List.dropWhile_cons_of_neg (by rw [hcd]; exact Bool.false_ne_true)]
    show (isDigitChar d && !ctx && !isWordChar c) = false
    rw [hcw]
    simp

/-- Rescan conditions for the self-freeness of `sub3`: at a scan state the
rescan context must agree with the original one when the head is a digit;
a run state is rescanned from a non-word context and holds a nonempty digit
run. -/
def selfCond3 : NumSt → List Char → Bool → Prop
  | .scan pc, l, pc' => ∀ c rest, l = c :: rest → isDigitChar c = true → pc' = pc
  | .run acc, _, pc' => pc' = false ∧ acc ≠ [] ∧ ∀ d ∈ acc, isDigitChar d = true

/-- The output of `sub3go` contains no rule-3 match. -/
theorem sub3_out_no3 :
    ∀ (l : List Char) (st : NumSt) (pc' : Bool), selfCond3 st l pc' →
      scanHas match3 pc' (sub3go st l) = false := by
  intro l
  induction l with
  | nil =>
    intro st pc' h
    cases st with
    | scan pc => rfl
    | run acc =>
      obtain ⟨rfl, -, -⟩ := h
      show scanHas match3 false numMask = false
      decide
  | cons c rest ih =>
    intro st pc' h
    cases st with
    | scan pc =>
      by_cases hentry : (isDigitChar c && !pc) = true
      · simp only [Bool.and_eq_true] at hentry
        obtain ⟨hd, hpc⟩ := hentry
        have hpc' : pc' = false := by
          rw [h c rest rfl hd]
          simpa using hpc
        show scanHas match3 pc' (sub3go (.scan pc) (c :: rest)) = false
        unfold sub3go
        rw [if_pos (by rw [hd, hpc]; rfl)]
        exact ih (.run [c]) pc' ⟨hpc', by simp, by simp [hd]⟩
      · show scanHas match3 pc' (sub3go (.scan pc) (c :: rest)) = false
        unfold sub3go
        rw [if_neg hentry]
        unfold scanHas
        refine Bool.or_eq_false_iff.mpr ⟨?_, ?_⟩
        · by_cases hd : isDigitChar c = true
          · have hpcT : pc = true := by
              cases pc
              · exact absurd (by rw [hd]; rfl) hentry
              · rfl
            have : pc' = true := (h c rest rfl hd).trans hpcT
            show (isDigitChar c && !pc' &&
              bAfter ((c :: sub3go (.scan (isWordChar c)) rest).dropWhile isDigitChar)) = false
            rw [this]
            simp
          · show (isDigitChar c && !pc' &&
              bAfter ((c :: sub3go (.scan (isWordChar c)) rest).dropWhile isDigitChar)) = false
            rw [Bool.not_eq_true] at hd
            rw [hd]
            rfl
        · exact ih (.scan (isWordChar c)) (isWordChar c) (fun _ _ _ _ => rfl)
    | run acc =>
      obtain ⟨hpc', hne, hdigs⟩ := h
      by_cases hd : isDigitChar c = true
      · show scanHas match3 pc' (sub3go (.run acc) (c :: rest)) = false
        unfold sub3go
        rw [if_pos hd]
        refine ih (.run (c :: acc)) pc' ⟨hpc', by simp, ?_⟩
        intro d hdm
        rcases List.mem_cons.mp hdm with rfl | hmem
        · exact hd
        · exact hdigs d hmem
      · by_cases hw : isWordChar c = true
        · show scanHas match3 pc' (sub3go (.run acc) (c :: rest)) = false
          unfold sub3go
          rw [if_neg hd, if_pos hw]
          have hT : scanHas match3 (isWordChar c) (sub3go (.scan true) rest) = false := by
            have := ih (.scan true) true (fun _ _ _ _ => rfl)
            rw [hw]
            exact this
          exact scan3_digits_word acc.reverse
            (fun d hdm => hdigs d (List.mem_reverse.mp hdm))
            c (by rw [Bool.not_eq_true] at hd; exact hd) hw pc' _ hT
        · show scanHas match3 pc' (sub3go (.run acc) (c :: rest)) = false
          unfold sub3go
          rw [if_neg hd, if_neg hw]
          have hcd : isDigitChar c = false := by
            rw [Bool.not_eq_true] at hd; exact hd
          have hT := ih (.scan (isWordChar c)) (isWordChar c) (fun _ _ _ _ => rfl)
          have hall : ∀ x ∈ numMask ++ [c], isDigitChar x = false := by
            intro x hx
            rcases List.mem_append.mp hx with hx | hx
            · fin_cases hx <;> rfl
            · rw [List.mem_singleton.mp hx]; exact hcd
          have hctx : ctxAfter pc' (numMask ++ [c]) = isWordChar c := rfl
          have hres := scan3_skip (numMask ++ [c]) hall pc'
            (sub3go (.scan (isWordChar c)) rest) (by rw [hctx]; exact hT)
          simpa using hres

/-! ### Local verdict helpers for the rule-2 matcher -/

/-- The rule-2 verdict depends only on the 36-character window and the
character after it. -/
theorem uuidMatchAt_eq_aux (pv : Bool) (l : List Char) :
    uuidMatchAt pv l =
      match l.take 36 with
      | [] => false
      | c :: _ =>
        (pv != isWordChar c) && ((l.take 36).length = 36) &&
          (l.take 36).all isUuidChar &&
          (match (l.take 36).getLast? with
           | none => false
           | some lastc =>
             isWordChar lastc != (match l.get? 36 with
                                  | none => false
                                  | some nc => isWordChar nc)) := by
  cases l with
  | nil => rfl
  | cons c t => rfl

/-- The verdict is the same on two strings sharing window and after-character. -/
theorem uuidMatchAt_congr {l l' : List Char} (h36 : l.take 36 = l'.take 36)
    (hg : l.get? 36 = l'.get? 36) (pv : Bool) :
    uuidMatchAt pv l = uuidMatchAt pv l' := by
  rw [uuidMatchAt_eq_aux, uuidMatchAt_eq_aux, h36, hg]

/-- A non-class character inside the window refutes a rule-2 match. -/
theorem uuidMatchAt_mem_nonuuid {l : List Char} {x : Char}
    (hmem : x ∈ l.take 36) (hx : isUuidChar x = false) (pv : Bool) :
    uuidMatchAt pv l = false := by
  rw [uuidMatchAt_eq_aux]
  cases hw : l.take 36 with
  | nil => rfl
  | cons c w' =>
    have hall : (l.take 36).all isUuidChar = false := by
      rw [List.all_eq_false]
      exact ⟨x, hmem, by rw [hx]; exact Bool.false_ne_true⟩
    rw [hw] at hall
    rw [hall]
    simp

/-- A non-class character at the head refutes a rule-2 match. -/
theorem uuidMatchAt_nonuuid_head {c : Char} (hx : isUuidChar c = false)
    (pv : Bool) (t : List Char) : uuidMatchAt pv (c :: t) = false := by
  refine uuidMatchAt_mem_nonuuid ?_ hx pv
  show c ∈ (c :: t).take 36
  rw [show (c :: t).take 36 = c :: t.take 35 from rfl]
  exact List.mem_cons_self c _

/-- No `\b` at the head (the context has the same wordness) refutes a rule-2
match. -/
theorem uuidMatchAt_ctx_eq {c : Char} {pv : Bool} (h : pv = isWordChar c)
    (t : List Char) : uuidMatchAt pv (c :: t) = false := by
  show ((pv != isWordChar c) && _ && _ && _) = false
  rw [h, bne_self_eq_false]
  simp

/-- The conjuncts of a successful rule-2 verdict. -/
theorem uuidMatchAt_true_elim {pv : Bool} {c : Char} {t : List Char}
    (h : uuidMatchAt pv (c :: t) = true) :
    (pv != isWordChar c) = true ∧ ((c :: t).take 36).length = 36 ∧
      ((c :: t).take 36).all isUuidChar = true ∧
      (match ((c :: t).take 36).getLast? with
       | none => false
       | some lastc =>
         isWordChar lastc != (match (c :: t).get? 36 with
                              | none => false
                              | some nc => isWordChar nc)) = true := by
  have h' : ((pv != isWordChar c) && (((c :: t).take 36).length = 36) &&
      ((c :: t).take 36).all isUuidChar &&
      (match ((c :: t).take 36).getLast? with
       | none => false
       | some lastc =>
         isWordChar lastc != (match (c :: t).get? 36 with
                              | none => false
                              | some nc => isWordChar nc))) = true := h
  simp only [Bool.and_eq_true, decide_eq_true_eq] at h'
  exact ⟨h'.1.1.1, h'.1.1.2, h'.1.2, h'.2⟩

/-- Folding an optional-character wordness match into `wordOpt`. -/
theorem wordOpt_match (o : Option Char) :
    (match o with
     | none => false
     | some nc => isWordChar nc) = wordOpt o := by
  cases o <;> rfl

/-- `ctxAfter` over an appended list. -/
theorem ctxAfter_append (pv : Bool) :
    ∀ (P d : List Char), ctxAfter pv (P ++ d) = ctxAfter (ctxAfter pv P) d := by
  intro P
  induction P generalizing pv with
  | nil => intro d; rfl
  | cons x P' ih => intro d; exact ih (isWordChar x) d

/-- `ctxAfter` is the wordness of the last character. -/
theorem ctxAfter_getLast :
    ∀ {d : List Char} {c : Char}, d.getLast? = some c →
      ∀ pv, ctxAfter pv d = isWordChar c := by
  intro d
  induction d with
  | nil => intro c h; cases h
  | cons x d' ih =>
    intro c h pv
    cases d' with
    | nil =>
      have hx : x = c := by simpa using h
      rw [hx]; rfl
    | cons y d'' =>
      rw [ctxAfter_cons]
      exact ih (by simpa [List.getLast?_cons_cons] using h) pv

/-- A list with a known last element splits off that element. -/
theorem eq_append_of_getLast? :
    ∀ {d : List Char} {c : Char}, d.getLast? = some c → ∃ d0, d = d0 ++ [c] := by
  intro d
  induction d with
  | nil => intro c h; cases h
  | cons x d' ih =>
    intro c h
    cases d' with
    | nil =>
      have hx : x = c := by simpa using h
      exact ⟨[], by rw [hx]; rfl⟩
    | cons y d'' =>
      obtain ⟨d0, hd0⟩ := ih (by simpa [List.getLast?_cons_cons] using h)
      exact ⟨x :: d0, by rw [List.cons_append, ← hd0]⟩

/-- Rule-2 matches cannot start on a prefix of non-class characters. -/
theorem scan2_skip :
    ∀ (xs : List Char), (∀ x ∈ xs, isUuidChar x = false) →
      ∀ (pc : Bool) (T : List Char), scanHas uuidMatchAt (ctxAfter pc xs) T = false →
        scanHas uuidMatchAt pc (xs ++ T) = false := by
  intro xs
  induction xs with
  | nil => intro _ pc T h; simpa using h
  | cons x xs' ih =>
    intro hall pc T h
    rw [List.cons_append]
    unfold scanHas
    refine Bool.or_eq_false_iff.mpr
      ⟨?_, ih (fun y hy => hall y (List.mem_cons_of_mem x hy)) (isWordChar x) T h⟩
    exact uuidMatchAt_nonuuid_head (hall x (List.mem_cons_self x xs')) pc _

/-! ### Local verdict helpers for the rule-3 matcher -/

/-- The rule-3 verdict as a function of the head and the digit run. -/
theorem match3_eq_aux (pv : Bool) (l : List Char) :
    match3 pv l =
      match l.head? with
      | none => false
      | some c => isDigitChar c && !pv && bAfter (l.dropWhile isDigitChar) := by
  cases l <;> rfl

/-- A non-digit head refutes a rule-3 match. -/
theorem match3_nondigit_head {c : Char} (h : isDigitChar c = false)
    (pv : Bool) (t : List Char) : match3 pv (c :: t) = false := by
  show (isDigitChar c && !pv && bAfter ((c :: t).dropWhile isDigitChar)) = false
  rw [h]
  rfl

/-- Behind a quote, the `\b` after the leading digit run does not depend on
what follows the quote. -/
theorem bAfter_dropWhile_quote_split :
    ∀ (d0 X Y : List Char),
      bAfter ((d0 ++ '\'' :: X).dropWhile isDigitChar) =
        bAfter ((d0 ++ '\'' :: Y).dropWhile isDigitChar) := by
  intro d0
  induction d0 with
  | nil =>
    intro X Y
    rw [List.nil_append, List.nil_append,
      List.dropWhile_cons_of_neg (by decide), List.dropWhile_cons_of_neg (by decide)]
    rfl
  | cons h0 d0' ih =>
    intro X Y
    by_cases hd : isDigitChar h0 = true
    · rw [List.cons_append, List.cons_append, List.dropWhile_cons_of_pos hd,
        List.dropWhile_cons_of_pos hd]
      exact ih X Y
    · rw [List.cons_append, List.cons_append, List.dropWhile_cons_of_neg hd,
        List.dropWhile_cons_of_neg hd]
      rfl

/-! ### Divergence relations between a string and its substituted image -/

/-- The rule-2 verdict as a function of the window and the after-character. -/
def uuidVerdict (pv : Bool) (w : List Char) (after : Option Char) : Bool :=
  (pv != wordOpt w.head?) && (w.length = 36) && w.all isUuidChar &&
    (wordOpt w.getLast? != wordOpt after)

/-- `uuidMatchAt` only looks at the window and the character after it. -/
theorem uuidMatchAt_eq_verdict (pv : Bool) (l : List Char) :
    uuidMatchAt pv l = uuidVerdict pv (l.take 36) (l.get? 36) := by
  cases l with
  | nil => cases pv <;> rfl
  | cons c t =>
    show ((pv != isWordChar c) && (((c :: t).take 36).length = 36) &&
        ((c :: t).take 36).all isUuidChar &&
        (match ((c :: t).take 36).getLast? with
         | none => false
         | some lastc =>
           isWordChar lastc != (match (c :: t).get? 36 with
                                | none => false
                                | some nc => isWordChar nc))) = _
    unfold uuidVerdict
    rw [wordOpt_match]
    have hh : wordOpt ((c :: t).take 36).head? = isWordChar c := by
      rw [show (c :: t).take 36 = c :: t.take 35 from rfl]
      rfl
    rw [hh]
    cases hgl : ((c :: t).take 36).getLast? with
    | none =>
      exfalso
      rw [show (c :: t).take 36 = c :: t.take 35 from rfl] at hgl
      exact absurd (List.getLast?_eq_none_iff.mp hgl) (List.cons_ne_nil _ _)
    | some lastc => rfl

/-- Boundary flip at the divergence point: if the wordness of the window's
last character differs from that of the input's next character, a failing
input verdict forces a failing verdict when the next character becomes the
mask's brace. -/
theorem uuidVerdict_switch {pv : Bool} {d : List Char} {lastc c1 : Char}
    (hlast : d.getLast? = some lastc) (hne : ¬isWordChar lastc = isWordChar c1)
    (h : uuidVerdict pv d (some c1) = false) :
    uuidVerdict pv d (some '\x7b') = false := by
  unfold uuidVerdict at h ⊢
  rw [hlast, show wordOpt (some lastc) = isWordChar lastc from rfl,
    show wordOpt (some '\x7b') = false from rfl]
  rw [hlast, show wordOpt (some lastc) = isWordChar lastc from rfl,
    show wordOpt (some c1) = isWordChar c1 from rfl] at h
  cases hwl : isWordChar lastc with
  | false =>
    rw [show (false != false) = false from rfl, Bool.and_false]
  | true =>
    have hw1 : isWordChar c1 = false := by
      cases hq : isWordChar c1 with
      | false => rfl
      | true => rw [hwl, hq] at hne; exact absurd rfl hne
    rw [hwl, hw1, show (true != false) = true from rfl, Bool.and_true] at h
    rw [show (true != false) = true from rfl, Bool.and_true]
    exact h

/-- Divergence structure between an input suffix and the output of the rule-2
or rule-3 substitution: either unchanged, or a shared prefix `d` after which
the output continues with the mask's opening brace while the input continues
with the first character of a replaced span whose leading `\b` held. -/
def AgreeV (pv : Bool) (r T : List Char) : Prop :=
  T = r ∨ ∃ d r1 T1 c1, r = d ++ c1 :: r1 ∧ T = d ++ T1 ∧
    T1.head? = some '\x7b' ∧ ¬ctxAfter pv d = isWordChar c1

/-- `AgreeV` composes with a common emitted prefix. -/
theorem AgreeV_lift {pv : Bool} (P : List Char) {r T : List Char}
    (h : AgreeV (ctxAfter pv P) r T) : AgreeV pv (P ++ r) (P ++ T) := by
  rcases h with h | ⟨d, r1, T1, c1, h1, h2, h3, h4⟩
  · exact Or.inl (by rw [h])
  · refine Or.inr ⟨P ++ d, r1, T1, c1, by rw [h1, List.append_assoc],
      by rw [h2, List.append_assoc], h3, ?_⟩
    rw [ctxAfter_append]
    exact h4

/-- Verdict transfer along an `AgreeV` divergence: a failing input verdict at
a position forces a failing output verdict at the same position. -/
theorem AgreeV_verdict {pv : Bool} {r T : List Char} (hA : AgreeV pv r T)
    (h : uuidMatchAt pv r = false) : uuidMatchAt pv T = false := by
  rcases hA with hEq | ⟨d, r1, T1, c1, h1, h2, h3, h4⟩
  · rw [hEq]; exact h
  · obtain ⟨T1', rfl⟩ : ∃ T1', T1 = '\x7b' :: T1' := by
      cases T1 with
      | nil => cases h3
      | cons a t =>
        refine ⟨t, ?_⟩
        injection h3 with ha
        rw [ha]
    subst h1
    subst h2
    rcases Nat.lt_or_ge d.length 36 with hlt | hge
    · refine uuidMatchAt_mem_nonuuid (x := '\x7b') ?_ (by decide) pv
      rw [List.take_append_eq_append_take]
      refine List.mem_append_right _ ?_
      obtain ⟨k, hk⟩ : ∃ k, 36 - d.length = k + 1 := ⟨35 - d.length, by omega⟩
      rw [hk, List.take_succ_cons]
      exact List.mem_cons_self _ _
    · obtain ⟨lastc, hlast⟩ : ∃ lc, d.getLast? = some lc := by
        cases d with
        | nil => exact absurd hge (by simp)
        | cons a t => exact ⟨(a :: t).getLast (by simp), List.getLast?_eq_getLast _ _⟩
      have hctxd : ctxAfter pv d = isWordChar lastc := ctxAfter_getLast hlast pv
      have hne : ¬isWordChar lastc = isWordChar c1 := by rw [← hctxd]; exact h4
      rcases Nat.eq_or_lt_of_le hge with h36 | h37
      · have htT : (d ++ '\x7b' :: T1').take 36 = d := by
          rw [List.take_append_eq_append_take, List.take_of_length_le (by omega),
            show 36 - d.length = 0 from by omega]
          simp
        have htR : (d ++ c1 :: r1).take 36 = d := by
          rw [List.take_append_eq_append_take, List.take_of_length_le (by omega),
            show 36 - d.length = 0 from by omega]
          simp
        have hgT : (d ++ '\x7b' :: T1').get? 36 = some '\x7b' := by
          rw [List.get?_append_right (by omega), show 36 - d.length = 0 from by omega]
          rfl
        have hgR : (d ++ c1 :: r1).get? 36 = some c1 := by
          rw [List.get?_append_right (by omega), show 36 - d.length = 0 from by omega]
          rfl
        rw [uuidMatchAt_eq_verdict, htT, hgT]
        rw [uuidMatchAt_eq_verdict, htR, hgR] at h
        exact uuidVerdict_switch hlast hne h
      · have htT : (d ++ '\x7b' :: T1').take 36 = (d ++ c1 :: r1).take 36 := by
          rw [List.take_append_eq_append_take, List.take_append_eq_append_take,
            show 36 - d.length = 0 from by omega]
          simp
        have hgT : (d ++ '\x7b' :: T1').get? 36 = (d ++ c1 :: r1).get? 36 := by
          rw [List.get?_append (by omega), List.get?_append (by omega)]
        rw [uuidMatchAt_congr htT hgT]
        exact h

/-- Divergence structure for the rule-4 substitution: the shared prefix ends
with the opening quote and the output continues with the mask's brace. -/
def AgreeQ (r T : List Char) : Prop :=
  T = r ∨ ∃ d r1 T1, r = d ++ r1 ∧ T = d ++ T1 ∧
    T1.head? = some '\x7b' ∧ d.getLast? = some '\''

/-- `AgreeQ` composes with a common emitted prefix. -/
theorem AgreeQ_lift (P : List Char) {r T : List Char} (h : AgreeQ r T) :
    AgreeQ (P ++ r) (P ++ T) := by
  rcases h with h | ⟨d, r1, T1, h1, h2, h3, h4⟩
  · exact Or.inl (by rw [h])
  · refine Or.inr ⟨P ++ d, r1, T1, by rw [h1, List.append_assoc],
      by rw [h2, List.append_assoc], h3, ?_⟩
    have hdne : d ≠ [] := by
      intro hd; rw [hd] at h4; cases h4
    rw [List.getLast?_append_of_ne_nil _ hdne]
    exact h4

/-- Rule-2 verdict transfer along an `AgreeQ` divergence. -/
theorem AgreeQ_verdict {r T : List Char} (hA : AgreeQ r T) (pv : Bool)
    (h : uuidMatchAt pv r = false) : uuidMatchAt pv T = false := by
  rcases hA with hEq | ⟨d, r1, T1, h1, h2, h3, h4⟩
  · rw [hEq]; exact h
  · obtain ⟨T1', rfl⟩ : ∃ T1', T1 = '\x7b' :: T1' := by
      cases T1 with
      | nil => cases h3
      | cons a t =>
        refine ⟨t, ?_⟩
        injection h3 with ha
        rw [ha]
    subst h1
    subst h2
    rcases Nat.lt_or_ge d.length 37 with hlt | hge
    · refine uuidMatchAt_mem_nonuuid (x := '\'') ?_ (by decide) pv
      obtain ⟨d0, rfl⟩ := eq_append_of_getLast? h4
      rw [List.take_append_eq_append_take]
      refine List.mem_append_left _ ?_
      rw [List.take_of_length_le
        (by have := hlt; rw [List.length_append] at this; simp at this ⊢; omega)]
      exact List.mem_append_right _ (List.mem_cons_self _ _)
    · have htT : (d ++ '\x7b' :: T1').take 36 = (d ++ r1).take 36 := by
        rw [List.take_append_eq_append_take, List.take_append_eq_append_take,
          show 36 - d.length = 0 from by omega]
        simp
      have hgT : (d ++ '\x7b' :: T1').get? 36 = (d ++ r1).get? 36 := by
        rw [List.get?_append (by omega), List.get?_append (by omega)]
      rw [uuidMatchAt_congr htT hgT]
      exact h

/-- Rule-3 verdict transfer along an `AgreeQ` divergence (the verdicts are in
fact equal: the quote blocks the digit run before the divergence). -/
theorem AgreeQ_match3 {r T : List Char} (hA : AgreeQ r T) (pv : Bool)
    (h : match3 pv r = false) : match3 pv T = false := by
  rcases hA with hEq | ⟨d, r1, T1, h1, h2, h3, h4⟩
  · rw [hEq]; exact h
  · obtain ⟨d0, rfl⟩ := eq_append_of_getLast? h4
    subst h1
    subst h2
    have hr : (d0 ++ ['\'']) ++ r1 = d0 ++ '\'' :: r1 := by
      rw [List.append_assoc]; rfl
    have hT : (d0 ++ ['\'']) ++ T1 = d0 ++ '\'' :: T1 := by
      rw [List.append_assoc]; rfl
    rw [hT]
    rw [hr] at h
    cases d0 with
    | nil => exact match3_nondigit_head (by decide) pv T1
    | cons h0 d0' =>
      rw [List.cons_append] at h ⊢
      show (isDigitChar h0 && !pv &&
        bAfter ((h0 :: (d0' ++ '\'' :: T1)).dropWhile isDigitChar)) = false
      have h' : (isDigitChar h0 && !pv &&
          bAfter ((h0 :: (d0' ++ '\'' :: r1)).dropWhile isDigitChar)) = false := h
      by_cases hd : isDigitChar h0 = true
      · rw [List.dropWhile_cons_of_pos hd] at h' ⊢
        rw [bAfter_dropWhile_quote_split d0' T1 r1]
        exact h'
      · rw [Bool.not_eq_true] at hd
        rw [hd]
        rfl

/-! ### Each substitution satisfies its divergence relation -/

/-- `sub2` diverges from its input only at a replaced window. -/
theorem sub2_agree : ∀ (l : List Char) (pc : Bool), AgreeV pc l (sub2go (.scan pc) l) := by
  intro l
  induction l with
  | nil => intro pc; exact Or.inl rfl
  | cons c rest ih =>
    intro pc
    by_cases hm : uuidMatchAt pc (c :: rest) = true
    · refine Or.inr ⟨[], rest, uuidMask ++ sub2go (.skip 35) rest, c, rfl, ?_, rfl, ?_⟩
      · show sub2go (.scan pc) (c :: rest) = [] ++ (uuidMask ++ sub2go (.skip 35) rest)
        rw [List.nil_append]
        conv_lhs => unfold sub2go
        rw [if_pos hm]
      · obtain ⟨hb, -, -, -⟩ := uuidMatchAt_true_elim hm
        show ¬pc = isWordChar c
        intro hpc
        rw [hpc, bne_self_eq_false] at hb
        exact Bool.false_ne_true hb
    · have hout : sub2go (.scan pc) (c :: rest) = c :: sub2go (.scan (isWordChar c)) rest := by
        conv_lhs => unfold sub2go
        rw [if_neg hm]
      rw [hout]
      exact AgreeV_lift [c] (ih (isWordChar c))

/-- `sub3go` diverges from its input only at a replaced digit run whose
leading `\b` held, in both scanner states. -/
theorem sub3_agree_aux :
    ∀ (n : Nat) (l : List Char), l.length ≤ n →
      (∀ pc, AgreeV pc l (sub3go (.scan pc) l)) ∧
      (∀ acc, acc ≠ [] → (∀ a ∈ acc, isDigitChar a = true) →
        AgreeV false (acc.reverse ++ l) (sub3go (.run acc) l)) := by
  intro n
  induction n with
  | zero =>
    intro l hl
    have hnil : l = [] := List.eq_nil_of_length_eq_zero (Nat.le_zero.mp hl)
    subst hnil
    constructor
    · intro pc; exact Or.inl rfl
    · intro acc hne hdig
      obtain ⟨c1, rr, hrev⟩ : ∃ c1 rr, acc.reverse = c1 :: rr := by
        cases hrv : acc.reverse with
        | nil => exact absurd (by simpa using hrv) hne
        | cons a t => exact ⟨a, t, rfl⟩
      refine Or.inr ⟨[], rr, numMask, c1, ?_, rfl, rfl, ?_⟩
      · rw [List.append_nil, hrev]; rfl
      · have hc1 : isDigitChar c1 = true :=
          hdig c1 (List.mem_reverse.mp (by rw [hrev]; exact List.mem_cons_self _ _))
        show ¬false = isWordChar c1
        rw [isWordChar_of_isDigitChar hc1]
        exact Bool.false_ne_true
  | succ n ihn =>
    intro l hl
    cases l with
    | nil =>
      constructor
      · intro pc; exact Or.inl rfl
      · intro acc hne hdig
        obtain ⟨c1, rr, hrev⟩ : ∃ c1 rr, acc.reverse = c1 :: rr := by
          cases hrv : acc.reverse with
          | nil => exact absurd (by simpa using hrv) hne
          | cons a t => exact ⟨a, t, rfl⟩
        refine Or.inr ⟨[], rr, numMask, c1, ?_, rfl, rfl, ?_⟩
        · rw [List.append_nil, hrev]; rfl
        · have hc1 : isDigitChar c1 = true :=
            hdig c1 (List.mem_reverse.mp (by rw [hrev]; exact List.mem_cons_self _ _))
          show ¬false = isWordChar c1
          rw [isWordChar_of_isDigitChar hc1]
          exact Bool.false_ne_true
    | cons c r =>
      have hr : r.length ≤ n := Nat.le_of_succ_le_succ hl
      obtain ⟨ihS, ihR⟩ := ihn r hr
      constructor
      · intro pc
        by_cases hentry : (isDigitChar c && !pc) = true
        · simp only [Bool.and_eq_true] at hentry
          obtain ⟨hd, hpc⟩ := hentry
          have hpc' : pc = false := by
            cases pc
            · rfl
            · exact absurd hpc (by simp)
          subst hpc'
          have hout : sub3go (.scan false) (c :: r) = sub3go (.run [c]) r := by
            conv_lhs => unfold sub3go
            rw [if_pos (by rw [hd]; rfl)]
          rw [hout]
          have := ihR [c] (by simp) (by simp [hd])
          simpa using this
        · have hout : sub3go (.scan pc) (c :: r) = c :: sub3go (.scan (isWordChar c)) r := by
            conv_lhs => unfold sub3go
            rw [if_neg hentry]
          rw [hout]
          exact AgreeV_lift [c] (ihS (isWordChar c))
      · intro acc hne hdig
        by_cases hd : isDigitChar c = true
        · have hout : sub3go (.run acc) (c :: r) = sub3go (.run (c :: acc)) r := by
            conv_lhs => unfold sub3go
            rw [if_pos hd]
          rw [hout]
          have hdig' : ∀ a ∈ c :: acc, isDigitChar a = true := by
            intro a ha
            rcases List.mem_cons.mp ha with rfl | ha
            · exact hd
            · exact hdig a ha
          have := ihR (c :: acc) (by simp) hdig'
          rw [show acc.reverse ++ c :: r = (c :: acc).reverse ++ r from by
            simp only [List.reverse_cons, List.append_assoc, List.singleton_append]]
          exact this
        · by_cases hw : isWordChar c = true
          · have hout : sub3go (.run acc) (c :: r) =
                acc.reverse ++ c :: sub3go (.scan true) r := by
              conv_lhs => unfold sub3go
              rw [if_neg hd, if_pos hw]
            rw [hout]
            have hbase : ctxAfter false (acc.reverse ++ [c]) = true := by
              rw [ctxAfter_append]
              show isWordChar c = true
              exact hw
            have hlift := AgreeV_lift (acc.reverse ++ [c]) (by rw [hbase]; exact ihS true)
            rw [show acc.reverse ++ c :: r = (acc.reverse ++ [c]) ++ r from by
                simp only [List.append_assoc, List.singleton_append],
              show acc.reverse ++ c :: sub3go (.scan true) r =
                  (acc.reverse ++ [c]) ++ sub3go (.scan true) r from by
                simp only [List.append_assoc, List.singleton_append]]
            exact hlift
          · obtain ⟨c1, rr, hrev⟩ : ∃ c1 rr, acc.reverse = c1 :: rr := by
              cases hrv : acc.reverse with
              | nil => exact absurd (by simpa using hrv) hne
              | cons a t => exact ⟨a, t, rfl⟩
            refine Or.inr ⟨[], rr ++ c :: r,
              numMask ++ c :: sub3go (.scan (isWordChar c)) r, c1, ?_, ?_, rfl, ?_⟩
            · rw [hrev]; rfl
            · show sub3go (.run acc) (c :: r) = [] ++ _
              rw [List.nil_append]
              conv_lhs => unfold sub3go
              rw [if_neg hd, if_neg hw]
            · have hc1 : isDigitChar c1 = true :=
                hdig c1 (List.mem_reverse.mp (by rw [hrev]; exact List.mem_cons_self _ _))
              show ¬false = isWordChar c1
              rw [isWordChar_of_isDigitChar hc1]
              exact Bool.false_ne_true

/-- Top-level divergence relation for `sub3`. -/
theorem sub3_agree (l : List Char) (pc : Bool) : AgreeV pc l (sub3go (.scan pc) l) :=
  (sub3_agree_aux l.length l (le_refl _)).1 pc

/-- `sub4go` diverges from its input only right after an opening quote, in
both scanner states. -/
theorem sub4_agree_aux :
    ∀ (n : Nat) (l : List Char), l.length ≤ n →
      AgreeQ l (sub4go .scan l) ∧
      (∀ acc, AgreeQ ('\'' :: acc.reverse ++ l) (sub4go (.inq acc) l)) := by
  intro n
  induction n with
  | zero =>
    intro l hl
    have hnil : l = [] := List.eq_nil_of_length_eq_zero (Nat.le_zero.mp hl)
    subst hnil
    refine ⟨Or.inl rfl, fun acc => Or.inl ?_⟩
    rw [List.append_nil]
    rfl
  | succ n ihn =>
    intro l hl
    cases l with
    | nil =>
      refine ⟨Or.inl rfl, fun acc => Or.inl ?_⟩
      rw [List.append_nil]
      rfl
    | cons c r =>
      have hr : r.length ≤ n := Nat.le_of_succ_le_succ hl
      obtain ⟨ihS, ihQ⟩ := ihn r hr
      constructor
      · by_cases hq : c = '\''
        · subst hq
          have hout : sub4go .scan ('\'' :: r) = sub4go (.inq []) r := by
            conv_lhs => unfold sub4go
            rw [if_pos rfl]
          rw [hout]
          exact ihQ []
        · have hout : sub4go .scan (c :: r) = c :: sub4go .scan r := by
            conv_lhs => unfold sub4go
            rw [if_neg hq]
          rw [hout]
          exact AgreeQ_lift [c] ihS
      · intro acc
        by_cases hq : c = '\''
        · subst hq
          have hout : sub4go (.inq acc) ('\'' :: r) = strMask ++ sub4go .scan r := by
            conv_lhs => unfold sub4go
            rw [if_pos rfl]
          rw [hout]
          exact Or.inr ⟨['\''], acc.reverse ++ '\'' :: r,
            '\x7b' :: 'S' :: 'T' :: 'R' :: '\x7d' :: '\'' :: sub4go .scan r,
            rfl, rfl, rfl, rfl⟩
        · by_cases hn : c = '\n'
          · subst hn
            have hout : sub4go (.inq acc) ('\n' :: r) =
                '\'' :: acc.reverse ++ '\n' :: sub4go .scan r := by
              conv_lhs => unfold sub4go
              rw [if_neg (by decide), if_pos rfl]
            rw [hout]
            have hlift := AgreeQ_lift ('\'' :: acc.reverse ++ ['\n']) ihS
            rw [show '\'' :: acc.reverse ++ '\n' :: r =
                ('\'' :: acc.reverse ++ ['\n']) ++ r from by
                simp only [List.append_assoc, List.singleton_append],
              show '\'' :: acc.reverse ++ '\n' :: sub4go .scan r =
                  ('\'' :: acc.reverse ++ ['\n']) ++ sub4go .scan r from by
                simp only [List.append_assoc, List.singleton_append]]
            exact hlift
          · have hout : sub4go (.inq acc) (c :: r) = sub4go (.inq (c :: acc)) r := by
              conv_lhs => unfold sub4go
              rw [if_neg hq, if_neg hn]
            rw [hout]
            have := ihQ (c :: acc)
            rw [show '\'' :: acc.reverse ++ c :: r = '\'' :: (c :: acc).reverse ++ r from by
              simp only [List.reverse_cons, List.cons_append, List.append_assoc,
                List.singleton_append, List.nil_append]]
            exact this

/-- Top-level divergence relation for `sub4`. -/
theorem sub4_agree (l : List Char) : AgreeQ l (sub4go .scan l) :=
  (sub4_agree_aux l.length l (le_refl _)).1

/-! ### Walking a common emitted prefix -/

/-- Assembling a clean scan from a clean head verdict and a clean tail. -/
theorem scanHas_cons_intro (M : Bool → List Char → Bool) {pc : Bool} {c : Char}
    {rest : List Char} (h1 : M pc (c :: rest) = false)
    (h2 : scanHas M (isWordChar c) rest = false) :
    scanHas M pc (c :: rest) = false := by
  unfold scanHas
  rw [h1, h2]
  rfl

/-- Walking a common emitted prefix under an `AgreeV` divergence: verdicts
along the prefix transfer from input to output. -/
theorem scan_walkV :
    ∀ (xs : List Char) (pcO : Bool) (Tin Tout : List Char),
      AgreeV (ctxAfter pcO xs) Tin Tout →
      scanHas uuidMatchAt pcO (xs ++ Tin) = false →
      scanHas uuidMatchAt (ctxAfter pcO xs) Tout = false →
      scanHas uuidMatchAt pcO (xs ++ Tout) = false := by
  intro xs
  induction xs with
  | nil => intro pcO Tin Tout _ _ h3; simpa using h3
  | cons x xs' ih =>
    intro pcO Tin Tout hA h2 h3
    rw [List.cons_append] at h2 ⊢
    obtain ⟨hv, hrest⟩ := scanHas_cons_false h2
    refine scanHas_cons_intro _ ?_ (ih (isWordChar x) Tin Tout hA hrest h3)
    exact AgreeV_verdict (AgreeV_lift (x :: xs') hA) hv

/-- Walking a common emitted prefix with a pointwise verdict transfer. -/
theorem scan_walk_gen (M : Bool → List Char → Bool) {Tin Tout : List Char}
    (hvd : ∀ (pv : Bool) (P : List Char),
      M pv (P ++ Tin) = false → M pv (P ++ Tout) = false) :
    ∀ (xs : List Char) (pcO : Bool),
      scanHas M pcO (xs ++ Tin) = false →
      scanHas M (ctxAfter pcO xs) Tout = false →
      scanHas M pcO (xs ++ Tout) = false := by
  intro xs
  induction xs with
  | nil => intro pcO _ h3; simpa using h3
  | cons x xs' ih =>
    intro pcO h2 h3
    rw [List.cons_append] at h2 ⊢
    obtain ⟨hv, hrest⟩ := scanHas_cons_false h2
    exact scanHas_cons_intro _ (hvd pcO (x :: xs') hv) (ih (isWordChar x) hrest h3)

/-! ### The output of `sub2` has no rule-2 window -/

/-- Self-freeness of `sub2`, jointly over the scan state (with an aligned or
provably blocked output context) and the skip state (whose resume point
inherits the matched window's trailing boundary). -/
theorem sub2_self_aux :
    ∀ (n : Nat),
      (∀ l : List Char, l.length ≤ n → ∀ pc pcO,
        (pcO = pc ∨ (pcO = false ∧ ∀ c r', l = c :: r' → isWordChar c = false)) →
        scanHas uuidMatchAt pcO (sub2go (.scan pc) l) = false) ∧
      (∀ r : List Char, r.length ≤ n → ∀ k : Nat,
        (∀ x, r.get? k = some x →
          (isWordChar x != wordOpt ((r.drop (k + 1)).head?)) = true) →
        scanHas uuidMatchAt false (sub2go (.skip (k + 1)) r) = false) := by
  intro n
  induction n with
  | zero =>
    refine ⟨?_, ?_⟩
    · intro l hl pc pcO _
      have hnil : l = [] := List.eq_nil_of_length_eq_zero (Nat.le_zero.mp hl)
      subst hnil
      rfl
    · intro r hrn k _
      have hnil : r = [] := List.eq_nil_of_length_eq_zero (Nat.le_zero.mp hrn)
      subst hnil
      rfl
  | succ n ihn =>
    obtain ⟨ihS, ihK⟩ := ihn
    refine ⟨?_, ?_⟩
    · intro l hl pc pcO hH
      cases l with
      | nil => rfl
      | cons c r =>
        have hr : r.length ≤ n := Nat.le_of_succ_le_succ hl
        by_cases hm : uuidMatchAt pc (c :: r) = true
        · have hout : sub2go (.scan pc) (c :: r) = uuidMask ++ sub2go (.skip 35) r := by
            conv_lhs => unfold sub2go
            rw [if_pos hm]
          rw [hout]
          obtain ⟨-, hlen, -, hbound⟩ := uuidMatchAt_true_elim hm
          have hlen35 : (r.take 35).length = 35 := by
            rw [show (c :: r).take 36 = c :: r.take 35 from rfl] at hlen
            simpa using hlen
          have hgl : ((c :: r).take 36).getLast? = r.get? 34 := by
            rw [show (c :: r).take 36 = c :: r.take 35 from rfl]
            obtain ⟨t0, ts, hts⟩ : ∃ t0 ts, r.take 35 = t0 :: ts := by
              cases htk : r.take 35 with
              | nil => rw [htk] at hlen35; exact absurd hlen35 (by decide)
              | cons a t => exact ⟨a, t, rfl⟩
            rw [hts, List.getLast?_cons_cons, ← hts, List.getLast?_eq_getElem?, hlen35,
              show (35 : Nat) - 1 = 34 from rfl, List.getElem?_take, if_pos (by omega),
              List.get?_eq_getElem?]
          have hafter : (match (c :: r).get? 36 with
              | none => false
              | some nc => isWordChar nc) = wordOpt ((r.drop 35).head?) := by
            rw [wordOpt_match]
            congr 1
            rw [show (c :: r).get? 36 = r.get? 35 from rfl, List.get?_eq_getElem?,
              List.head?_eq_getElem?, List.getElem?_drop]
          have hX : scanHas uuidMatchAt false (sub2go (.skip 35) r) = false := by
            refine ihK r hr 34 ?_
            intro x hx
            have hWx : ((c :: r).take 36).getLast? = some x := by rw [hgl]; exact hx
            have hb0 := hbound
            rw [hWx] at hb0
            have hb2 : (isWordChar x !=
                (match (c :: r).get? 36 with
                 | none => false
                 | some nc => isWordChar nc)) = true := hb0
            rw [hafter] at hb2
            rw [show (r.drop 35).head? = (r.drop (34 + 1)).head? from rfl] at hb2
            exact hb2
          rw [show uuidMask ++ sub2go (.skip 35) r =
            '\x7b' :: 'U' :: 'U' :: 'I' :: 'D' :: '\x7d' :: sub2go (.skip 35) r from rfl]
          refine scanHas_cons_intro _ (uuidMatchAt_nonuuid_head (by decide) _ _) ?_
          refine scanHas_cons_intro _ (uuidMatchAt_nonuuid_head (by decide) _ _) ?_
          refine scanHas_cons_intro _ (uuidMatchAt_nonuuid_head (by decide) _ _) ?_
          refine scanHas_cons_intro _ (uuidMatchAt_nonuuid_head (by decide) _ _) ?_
          refine scanHas_cons_intro _ ?_ ?_
          · refine uuidMatchAt_mem_nonuuid (x := '\x7d') ?_ (by decide) _
            rw [show ('D' :: '\x7d' :: sub2go (.skip 35) r).take 36 =
              'D' :: '\x7d' :: (sub2go (.skip 35) r).take 34 from rfl]
            exact List.mem_cons_of_mem _ (List.mem_cons_self _ _)
          refine scanHas_cons_intro _ (uuidMatchAt_nonuuid_head (by decide) _ _) ?_
          rw [show isWordChar '\x7d' = false from rfl]
          exact hX
        · have hout : sub2go (.scan pc) (c :: r) =
              c :: sub2go (.scan (isWordChar c)) r := by
            conv_lhs => unfold sub2go
            rw [if_neg hm]
          rw [hout]
          refine scanHas_cons_intro _ ?_ (ihS r hr (isWordChar c) (isWordChar c) (Or.inl rfl))
          rcases hH with rfl | ⟨rfl, hblock⟩
          · have hA : AgreeV pcO (c :: r) (c :: sub2go (.scan (isWordChar c)) r) := by
              have hA0 := sub2_agree (c :: r) pcO
              rw [hout] at hA0
              exact hA0
            refine AgreeV_verdict hA ?_
            rw [Bool.not_eq_true] at hm
            exact hm
          · exact uuidMatchAt_ctx_eq (hblock c r rfl).symm _
    · intro r hrn k hb
      cases r with
      | nil => rfl
      | cons c r' =>
        have hr' : r'.length ≤ n := Nat.le_of_succ_le_succ hrn
        cases k with
        | zero =>
          have hout : sub2go (.skip 1) (c :: r') = sub2go (.scan (isWordChar c)) r' := by
            conv_lhs => unfold sub2go
            rw [if_pos rfl]
          rw [hout]
          refine ihS r' hr' (isWordChar c) false ?_
          cases hw : isWordChar c with
          | false => exact Or.inl rfl
          | true =>
            refine Or.inr ⟨rfl, ?_⟩
            intro c2 r2 hr2
            have hbc := hb c rfl
            rw [hw, show (c :: r').drop 1 = r' from rfl] at hbc
            have hwo : wordOpt r'.head? = false := by
              cases hwo : wordOpt r'.head? with
              | false => rfl
              | true => rw [hwo] at hbc; exact absurd hbc (by decide)
            rw [hr2] at hwo
            exact hwo
        | succ j =>
          have hout : sub2go (.skip (j + 2)) (c :: r') = sub2go (.skip (j + 1)) r' := by
            conv_lhs => unfold sub2go
            rw [if_neg (by omega)]
          rw [hout]
          refine ihK r' hr' j ?_
          intro x hx
          have hbx := hb x (by rw [show (c :: r').get? (j + 1) = r'.get? j from rfl]; exact hx)
          rw [show (c :: r').drop (j + 1 + 1) = r'.drop (j + 1) from rfl] at hbx
          exact hbx

/-- The output of `sub2` never contains a rule-2 window. -/
theorem sub2_self (l : List Char) : scanHas uuidMatchAt false (sub2 l) = false :=
  (sub2_self_aux l.length).1 l (le_refl _) false false (Or.inl rfl)

/-! ### `sub3` preserves freeness from rule-2 windows -/

/-- If the input has no rule-2 window, neither does the output of `sub3go`,
in both scanner states. -/
theorem sub3_pres2_aux :
    ∀ (n : Nat),
      (∀ l : List Char, l.length ≤ n → ∀ pc,
        scanHas uuidMatchAt pc l = false →
        scanHas uuidMatchAt pc (sub3go (.scan pc) l) = false) ∧
      (∀ r : List Char, r.length ≤ n → ∀ acc, acc ≠ [] →
        (∀ a ∈ acc, isDigitChar a = true) →
        scanHas uuidMatchAt false (acc.reverse ++ r) = false →
        scanHas uuidMatchAt false (sub3go (.run acc) r) = false) := by
  intro n
  induction n with
  | zero =>
    refine ⟨?_, ?_⟩
    · intro l hl pc _
      have hnil : l = [] := List.eq_nil_of_length_eq_zero (Nat.le_zero.mp hl)
      subst hnil
      rfl
    · intro r hrn acc _ _ _
      have hnil : r = [] := List.eq_nil_of_length_eq_zero (Nat.le_zero.mp hrn)
      subst hnil
      show scanHas uuidMatchAt false numMask = false
      decide
  | succ n ihn =>
    obtain ⟨ihS, ihR⟩ := ihn
    refine ⟨?_, ?_⟩
    · intro l hl pc hclean
      cases l with
      | nil => rfl
      | cons c r =>
        have hr : r.length ≤ n := Nat.le_of_succ_le_succ hl
        obtain ⟨hv, hrest⟩ := scanHas_cons_false hclean
        by_cases hentry : (isDigitChar c && !pc) = true
        · simp only [Bool.and_eq_true] at hentry
          obtain ⟨hd, hpc⟩ := hentry
          have hpc' : pc = false := by
            cases pc
            · rfl
            · exact absurd hpc (by simp)
          subst hpc'
          have hout : sub3go (.scan false) (c :: r) = sub3go (.run [c]) r := by
            conv_lhs => unfold sub3go
            rw [if_pos (by rw [hd]; rfl)]
          rw [hout]
          refine ihR r hr [c] (by simp) (by simp [hd]) ?_
          rw [show ([c] : List Char).reverse ++ r = c :: r from rfl]
          exact hclean
        · have hout : sub3go (.scan pc) (c :: r) =
              c :: sub3go (.scan (isWordChar c)) r := by
            conv_lhs => unfold sub3go
            rw [if_neg hentry]
          rw [hout]
          refine scanHas_cons_intro _ ?_ (ihS r hr (isWordChar c) hrest)
          have hA : AgreeV pc (c :: r) (c :: sub3go (.scan (isWordChar c)) r) := by
            have hA0 := sub3_agree (c :: r) pc
            rw [hout] at hA0
            exact hA0
          exact AgreeV_verdict hA hv
    · intro r hrn acc hne hdig hclean
      cases r with
      | nil =>
        show scanHas uuidMatchAt false numMask = false
        decide
      | cons c r2 =>
        have hr2 : r2.length ≤ n := Nat.le_of_succ_le_succ hrn
        by_cases hd : isDigitChar c = true
        · have hout : sub3go (.run acc) (c :: r2) = sub3go (.run (c :: acc)) r2 := by
            conv_lhs => unfold sub3go
            rw [if_pos hd]
          rw [hout]
          refine ihR r2 hr2 (c :: acc) (by simp) ?_ ?_
          · intro a ha
            rcases List.mem_cons.mp ha with rfl | ha
            · exact hd
            · exact hdig a ha
          · rw [show (c :: acc).reverse ++ r2 = acc.reverse ++ c :: r2 from by
              simp only [List.reverse_cons, List.append_assoc, List.singleton_append]]
            exact hclean
        · by_cases hw : isWordChar c = true
          · have hout : sub3go (.run acc) (c :: r2) =
                acc.reverse ++ c :: sub3go (.scan true) r2 := by
              conv_lhs => unfold sub3go
              rw [if_neg hd, if_pos hw]
            rw [hout]
            have hbase : ctxAfter false (acc.reverse ++ [c]) = true := by
              rw [ctxAfter_append]
              show isWordChar c = true
              exact hw
            have hcleanP :
                scanHas uuidMatchAt false ((acc.reverse ++ [c]) ++ r2) = false := by
              rw [show (acc.reverse ++ [c]) ++ r2 = acc.reverse ++ c :: r2 from by
                simp only [List.append_assoc, List.singleton_append]]
              exact hclean
            have hr2clean : scanHas uuidMatchAt true r2 = false := by
              have hap := scanHas_append uuidMatchAt (acc.reverse ++ [c]) false r2 hcleanP
              rw [hbase] at hap
              exact hap
            have hTclean : scanHas uuidMatchAt (ctxAfter false (acc.reverse ++ [c]))
                (sub3go (.scan true) r2) = false := by
              rw [hbase]
              exact ihS r2 hr2 true hr2clean
            have hA : AgreeV (ctxAfter false (acc.reverse ++ [c])) r2
                (sub3go (.scan true) r2) := by
              rw [hbase]
              exact sub3_agree r2 true
            have hwk := scan_walkV (acc.reverse ++ [c]) false r2
              (sub3go (.scan true) r2) hA hcleanP hTclean
            rw [show (acc.reverse ++ [c]) ++ sub3go (.scan true) r2 =
                acc.reverse ++ c :: sub3go (.scan true) r2 from by
              simp only [List.append_assoc, List.singleton_append]] at hwk
            exact hwk
          · have hwf : isWordChar c = false := by
              rw [Bool.not_eq_true] at hw; exact hw
            have hout : sub3go (.run acc) (c :: r2) =
                numMask ++ c :: sub3go (.scan (isWordChar c)) r2 := by
              conv_lhs => unfold sub3go
              rw [if_neg hd, if_neg hw]
            rw [hout]
            refine scan2_skip numMask (by intro x hx; fin_cases hx <;> rfl) false _ ?_
            rw [show ctxAfter false numMask = false from rfl]
            refine scanHas_cons_intro _ (uuidMatchAt_ctx_eq (by rw [hwf]) _) ?_
            refine ihS r2 hr2 (isWordChar c) ?_
            have hap := scanHas_append uuidMatchAt (acc.reverse ++ [c]) false r2 (by
              rw [show (acc.reverse ++ [c]) ++ r2 = acc.reverse ++ c :: r2 from by
                simp only [List.append_assoc, List.singleton_append]]
              exact hclean)
            rw [ctxAfter_append] at hap
            exact hap

/-- `sub3` preserves rule-2-window freeness. -/
theorem sub3_pres2 (l : List Char) (h : scanHas uuidMatchAt false l = false) :
    scanHas uuidMatchAt false (sub3 l) = false :=
  (sub3_pres2_aux l.length).1 l (le_refl _) false h

/-! ### `sub4` preserves freeness from rule-2 and rule-3 matches -/

/-- Generic preservation through `sub4go`: any anchored matcher whose
verdicts transfer along `AgreeQ` divergences and which cannot fire from
inside the string mask is preserved, in both scanner states. -/
theorem sub4_pres_aux (M : Bool → List Char → Bool)
    (hM : ∀ {r T : List Char}, AgreeQ r T → ∀ pv, M pv r = false → M pv T = false)
    (hmask : ∀ (pcO : Bool) (X : List Char), scanHas M false X = false →
      scanHas M pcO (strMask ++ X) = false) :
    ∀ (n : Nat),
      (∀ l : List Char, l.length ≤ n → ∀ pcO,
        scanHas M pcO l = false → scanHas M pcO (sub4go .scan l) = false) ∧
      (∀ r : List Char, r.length ≤ n → ∀ acc pcO,
        scanHas M pcO ('\'' :: acc.reverse ++ r) = false →
        scanHas M pcO (sub4go (.inq acc) r) = false) := by
  intro n
  induction n with
  | zero =>
    refine ⟨?_, ?_⟩
    · intro l hl pcO _
      have hnil : l = [] := List.eq_nil_of_length_eq_zero (Nat.le_zero.mp hl)
      subst hnil
      rfl
    · intro r hrn acc pcO h
      have hnil : r = [] := List.eq_nil_of_length_eq_zero (Nat.le_zero.mp hrn)
      subst hnil
      show scanHas M pcO ('\'' :: acc.reverse) = false
      simpa using h
  | succ n ihn =>
    obtain ⟨ihS, ihQ⟩ := ihn
    refine ⟨?_, ?_⟩
    · intro l hl pcO h
      cases l with
      | nil => rfl
      | cons c r =>
        have hr : r.length ≤ n := Nat.le_of_succ_le_succ hl
        by_cases hq : c = '\''
        · subst hq
          have hout : sub4go .scan ('\'' :: r) = sub4go (.inq []) r := by
            conv_lhs => unfold sub4go
            rw [if_pos rfl]
          rw [hout]
          refine ihQ r hr [] pcO ?_
          simpa using h
        · have hout : sub4go .scan (c :: r) = c :: sub4go .scan r := by
            conv_lhs => unfold sub4go
            rw [if_neg hq]
          rw [hout]
          obtain ⟨hv, hrest⟩ := scanHas_cons_false h
          refine scanHas_cons_intro _ ?_ (ihS r hr (isWordChar c) hrest)
          exact hM (AgreeQ_lift [c] (sub4_agree r)) pcO hv
    · intro r hrn acc pcO h
      cases r with
      | nil =>
        show scanHas M pcO ('\'' :: acc.reverse) = false
        simpa using h
      | cons c r' =>
        have hr' : r'.length ≤ n := Nat.le_of_succ_le_succ hrn
        by_cases hq : c = '\''
        · subst hq
          have hout : sub4go (.inq acc) ('\'' :: r') = strMask ++ sub4go .scan r' := by
            conv_lhs => unfold sub4go
            rw [if_pos rfl]
          rw [hout]
          refine hmask pcO _ ?_
          refine ihS r' hr' false ?_
          have hxs := scanHas_append M ('\'' :: acc.reverse ++ ['\'']) pcO r' (by
            rw [show ('\'' :: acc.reverse ++ ['\'']) ++ r' =
                '\'' :: acc.reverse ++ '\'' :: r' from by
              simp only [List.cons_append, List.append_assoc, List.singleton_append,
                List.nil_append]]
            exact h)
          rw [show ctxAfter pcO ('\'' :: acc.reverse ++ ['\'']) = false from by
            rw [ctxAfter_append]
            rfl] at hxs
          exact hxs
        · by_cases hn : c = '\n'
          · subst hn
            have hout : sub4go (.inq acc) ('\n' :: r') =
                '\'' :: acc.reverse ++ '\n' :: sub4go .scan r' := by
              conv_lhs => unfold sub4go
              rw [if_neg (by decide), if_pos rfl]
            rw [hout]
            have hA := sub4_agree r'
            have h2 : scanHas M pcO (('\'' :: acc.reverse ++ ['\n']) ++ r') = false := by
              rw [show ('\'' :: acc.reverse ++ ['\n']) ++ r' =
                  '\'' :: acc.reverse ++ '\n' :: r' from by
                simp only [List.cons_append, List.append_assoc, List.singleton_append,
                List.nil_append]]
              exact h
            have hctx : ctxAfter pcO ('\'' :: acc.reverse ++ ['\n']) = false := by
              rw [ctxAfter_append]
              rfl
            have h3 : scanHas M (ctxAfter pcO ('\'' :: acc.reverse ++ ['\n']))
                (sub4go .scan r') = false := by
              rw [hctx]
              refine ihS r' hr' false ?_
              have hxs := scanHas_append M ('\'' :: acc.reverse ++ ['\n']) pcO r' h2
              rw [hctx] at hxs
              exact hxs
            have hwk := scan_walk_gen M (fun pv P hp => hM (AgreeQ_lift P hA) pv hp)
              ('\'' :: acc.reverse ++ ['\n']) pcO h2 h3
            rw [show ('\'' :: acc.reverse ++ ['\n']) ++ sub4go .scan r' =
                '\'' :: acc.reverse ++ '\n' :: sub4go .scan r' from by
              simp only [List.cons_append, List.append_assoc, List.singleton_append,
                List.nil_append]] at hwk
            exact hwk
          · have hout : sub4go (.inq acc) (c :: r') = sub4go (.inq (c :: acc)) r' := by
              conv_lhs => unfold sub4go
              rw [if_neg hq, if_neg hn]
            rw [hout]
            refine ihQ r' hr' (c :: acc) pcO ?_
            rw [show ('\'' :: (c :: acc).reverse ++ r' : List Char) =
                '\'' :: acc.reverse ++ c :: r' from by
              simp only [List.reverse_cons, List.cons_append, List.append_assoc,
                List.singleton_append, List.nil_append]]
            exact h

/-- `sub4` preserves rule-2-window freeness. -/
theorem sub4_pres2 (l : List Char) (h : scanHas uuidMatchAt false l = false) :
    scanHas uuidMatchAt false (sub4 l) = false := by
  refine (sub4_pres_aux uuidMatchAt (fun hA pv hp => AgreeQ_verdict hA pv hp) ?_
    l.length).1 l (le_refl _) false h
  intro pcO X hX
  refine scan2_skip strMask (by intro x hx; fin_cases hx <;> rfl) pcO X ?_
  rw [show ctxAfter pcO strMask = false from rfl]
  exact hX

/-- `sub4` preserves rule-3-match freeness. -/
theorem sub4_pres3 (l : List Char) (h : scanHas match3 false l = false) :
    scanHas match3 false (sub4 l) = false := by
  refine (sub4_pres_aux match3 (fun hA pv hp => AgreeQ_match3 hA pv hp) ?_
    l.length).1 l (le_refl _) false h
  intro pcO X hX
  refine scan3_skip strMask (by intro x hx; fin_cases hx <;> rfl) pcO X ?_
  rw [show ctxAfter pcO strMask = false from rfl]
  exact hX

/-! ### `sub4` is idempotent -/

/-- An unterminated quote scans to the end unchanged. -/
theorem sub4_inq_run :
    ∀ (w a0 : List Char), (∀ c ∈ w, ¬c = '\'' ∧ ¬c = '\n') →
      sub4go (.inq a0) w = '\'' :: a0.reverse ++ w := by
  intro w
  induction w with
  | nil =>
    intro a0 _
    rw [List.append_nil]
    rfl
  | cons c w' ih =>
    intro a0 hall
    obtain ⟨hq, hn⟩ := hall c (List.mem_cons_self _ _)
    have hout : sub4go (.inq a0) (c :: w') = sub4go (.inq (c :: a0)) w' := by
      conv_lhs => unfold sub4go
      rw [if_neg hq, if_neg hn]
    rw [hout, ih (c :: a0) (fun x hx => hall x (List.mem_cons_of_mem _ hx))]
    simp only [List.reverse_cons, List.cons_append, List.append_assoc,
      List.singleton_append, List.nil_append]

/-- A quote-free stretch before a newline is emitted unchanged, and scanning
resumes after the newline. -/
theorem sub4_inq_nl :
    ∀ (w a0 X : List Char), (∀ c ∈ w, ¬c = '\'' ∧ ¬c = '\n') →
      sub4go (.inq a0) (w ++ '\n' :: X) =
        '\'' :: a0.reverse ++ w ++ '\n' :: sub4go .scan X := by
  intro w
  induction w with
  | nil =>
    intro a0 X _
    rw [List.nil_append]
    have hout : sub4go (.inq a0) ('\n' :: X) =
        '\'' :: a0.reverse ++ '\n' :: sub4go .scan X := by
      conv_lhs => unfold sub4go
      rw [if_neg (by decide), if_pos rfl]
    rw [hout]
    simp only [List.append_nil, List.append_assoc, List.nil_append]
  | cons c w' ih =>
    intro a0 X hall
    obtain ⟨hq, hn⟩ := hall c (List.mem_cons_self _ _)
    rw [List.cons_append]
    have hout : sub4go (.inq a0) (c :: (w' ++ '\n' :: X)) =
        sub4go (.inq (c :: a0)) (w' ++ '\n' :: X) := by
      conv_lhs => unfold sub4go
      rw [if_neg hq, if_neg hn]
    rw [hout, ih (c :: a0) X (fun x hx => hall x (List.mem_cons_of_mem _ hx))]
    simp only [List.reverse_cons, List.cons_append, List.append_assoc,
      List.singleton_append, List.nil_append]

/-- Scanning the string mask passes over it unchanged. -/
theorem sub4_scan_mask (X : List Char) :
    sub4go .scan (strMask ++ X) = strMask ++ sub4go .scan X := rfl

/-- The output of `sub4go` is a fixpoint of another `sub4` pass, in both
states. -/
theorem sub4_idem_aux :
    ∀ (n : Nat),
      (∀ l : List Char, l.length ≤ n →
        sub4go .scan (sub4go .scan l) = sub4go .scan l) ∧
      (∀ r : List Char, r.length ≤ n → ∀ acc, (∀ c ∈ acc, ¬c = '\'' ∧ ¬c = '\n') →
        sub4go .scan (sub4go (.inq acc) r) = sub4go (.inq acc) r) := by
  intro n
  induction n with
  | zero =>
    refine ⟨?_, ?_⟩
    · intro l hl
      have hnil : l = [] := List.eq_nil_of_length_eq_zero (Nat.le_zero.mp hl)
      subst hnil
      rfl
    · intro r hrn acc hacc
      have hnil : r = [] := List.eq_nil_of_length_eq_zero (Nat.le_zero.mp hrn)
      subst hnil
      show sub4go .scan ('\'' :: acc.reverse) = '\'' :: acc.reverse
      have hout : sub4go .scan ('\'' :: acc.reverse) = sub4go (.inq []) acc.reverse := by
        conv_lhs => unfold sub4go
        rw [if_pos rfl]
      rw [hout, sub4_inq_run acc.reverse [] (fun c hc => hacc c (List.mem_reverse.mp hc))]
      rfl
  | succ n ihn =>
    obtain ⟨ihS, ihQ⟩ := ihn
    refine ⟨?_, ?_⟩
    · intro l hl
      cases l with
      | nil => rfl
      | cons c r =>
        have hr : r.length ≤ n := Nat.le_of_succ_le_succ hl
        by_cases hq : c = '\''
        · subst hq
          have hout : sub4go .scan ('\'' :: r) = sub4go (.inq []) r := by
            conv_lhs => unfold sub4go
            rw [if_pos rfl]
          rw [hout]
          exact ihQ r hr [] (by intro x hx; exact absurd hx (List.not_mem_nil x))
        · have hout : sub4go .scan (c :: r) = c :: sub4go .scan r := by
            conv_lhs => unfold sub4go
            rw [if_neg hq]
          rw [hout]
          have hstep : sub4go .scan (c :: sub4go .scan r) =
              c :: sub4go .scan (sub4go .scan r) := by
            conv_lhs => unfold sub4go
            rw [if_neg hq]
          rw [hstep, ihS r hr]
    · intro r hrn acc hacc
      cases r with
      | nil =>
        show sub4go .scan ('\'' :: acc.reverse) = '\'' :: acc.reverse
        have hout : sub4go .scan ('\'' :: acc.reverse) = sub4go (.inq []) acc.reverse := by
          conv_lhs => unfold sub4go
          rw [if_pos rfl]
        rw [hout, sub4_inq_run acc.reverse [] (fun c hc => hacc c (List.mem_reverse.mp hc))]
        rfl
      | cons c r' =>
        have hr' : r'.length ≤ n := Nat.le_of_succ_le_succ hrn
        by_cases hq : c = '\''
        · subst hq
          have hout : sub4go (.inq acc) ('\'' :: r') = strMask ++ sub4go .scan r' := by
            conv_lhs => unfold sub4go
            rw [if_pos rfl]
          rw [hout, sub4_scan_mask, ihS r' hr']
        · by_cases hn : c = '\n'
          · subst hn
            have hout : sub4go (.inq acc) ('\n' :: r') =
                '\'' :: acc.reverse ++ '\n' :: sub4go .scan r' := by
              conv_lhs => unfold sub4go
              rw [if_neg (by decide), if_pos rfl]
            rw [hout, List.cons_append]
            have hstep : sub4go .scan ('\'' :: (acc.reverse ++ '\n' :: sub4go .scan r')) =
                sub4go (.inq []) (acc.reverse ++ '\n' :: sub4go .scan r') := by
              conv_lhs => unfold sub4go
              rw [if_pos rfl]
            rw [hstep,
              sub4_inq_nl acc.reverse [] (sub4go .scan r')
                (fun x hx => hacc x (List.mem_reverse.mp hx)),
              ihS r' hr']
            simp only [List.reverse_nil, List.nil_append, List.cons_append,
              List.append_assoc]
          · have hout : sub4go (.inq acc) (c :: r') = sub4go (.inq (c :: acc)) r' := by
              conv_lhs => unfold sub4go
              rw [if_neg hq, if_neg hn]
            rw [hout]
            refine ihQ r' hr' (c :: acc) ?_
            intro x hx
            rcases List.mem_cons.mp hx with rfl | hx
            · exact ⟨hq, hn⟩
            · exact hacc x hx

/-- `sub4` is idempotent. -/
theorem sub4_idem (l : List Char) : sub4 (sub4 l) = sub4 l :=
  (sub4_idem_aux l.length).1 l (le_refl _)

/-! ### Idempotence of the full mask chain -/

/-- The fully masked string has no rule-3 match. -/
theorem maskChars_no3 (l : List Char) : scanHas match3 false (maskChars l) = false := by
  have h3 : scanHas match3 false (sub3 (sub2 (sub1 l))) = false :=
    sub3_out_no3 (sub2 (sub1 l)) (.scan false) false (fun _ _ _ _ => rfl)
  exact sub4_pres3 _ h3

/-- The fully masked string has no rule-2 window. -/
theorem maskChars_no2 (l : List Char) :
    scanHas uuidMatchAt false (maskChars l) = false := by
  have h23 : scanHas uuidMatchAt false (sub3 (sub2 (sub1 l))) = false :=
    sub3_pres2 _ (sub2_self (sub1 l))
  exact sub4_pres2 _ h23

/-- The fully masked string has no rule-1 match. -/
theorem maskChars_no1 (l : List Char) : scanHas match1 false (maskChars l) = false :=
  scanHas_mono_false (fun pc l' h => match1_imp_match3 pc l' h)
    (maskChars l) false (maskChars_no3 l)

/-- Masking is idempotent on character lists. -/
theorem maskChars_idem (l : List Char) : maskChars (maskChars l) = maskChars l := by
  have h1 : sub1 (maskChars l) = maskChars l :=
    sub1_id_of_no1 (maskChars l) (.scan false) (maskChars_no1 l)
  have h2 : sub2 (maskChars l) = maskChars l :=
    sub2_id_of_no2 (maskChars l) false (maskChars_no2 l)
  have h3 : sub3 (maskChars l) = maskChars l :=
    sub3_id_of_no3 (maskChars l) (.scan false) (maskChars_no3 l)
  show sub4 (sub3 (sub2 (sub1 (maskChars l)))) = maskChars l
  rw [h1, h2, h3]
  exact sub4_idem (sub3 (sub2 (sub1 l)))

/-- C9: message masking is idempotent — applying the four masking rules (IP,
UUID, number, quoted string) in the source's order to an already-masked
message changes nothing: `mask (mask m) = mask m` for every message `m`. -/
theorem C9_mask_idempotent (m : String) : maskMsg (maskMsg m) = maskMsg m := by
  show String.mk (maskChars (String.mk (maskChars m.toList)).toList) = _
  rw [show (String.mk (maskChars m.toList)).toList = maskChars m.toList from rfl,
    maskChars_idem]
  rfl

end LogAnalyzer
